import Mathlib

/-
Verification of the structural markdown editing engine of the obsidian
vault server.  Strings are modelled as `List Char` (Python string indices
are code points, so a character list with natural-number offsets matches
the source's slicing semantics exactly).  Each definition is translated
from the repository source; definitions modelling code that lives outside
the repository (the YAML frontmatter codec) carry a doc comment starting
with "Modelled from the spec:".
-/

/-! ## Python string primitives -/

/-- Python whitespace (`str.strip`, `str.split`, and `\s` of `re`): ASCII
whitespace together with the unicode whitespace code points recognised by
CPython (given numerically). -/
def pyWs (c : Char) : Bool :=
  let n := c.toNat
  (9 <= n && n <= 13) || n == 32 || (28 <= n && n <= 31) || n == 133 || n == 160 ||
  n == 5760 || (8192 <= n && n <= 8202) || n == 8232 || n == 8233 || n == 8239 ||
  n == 8287 || n == 12288

/-- Python `str.lstrip()`. -/
def lstripPy (cs : List Char) : List Char := cs.dropWhile pyWs

/-- Python `str.rstrip()`. -/
def rstripPy (cs : List Char) : List Char := (cs.reverse.dropWhile pyWs).reverse

/-- Python `str.strip()`. -/
def stripPy (cs : List Char) : List Char := rstripPy (lstripPy cs)

/-- Python `str.rstrip("\r\n")`: remove any trailing `\r` / `\n` characters. -/
def rstripRN (cs : List Char) : List Char :=
  (cs.reverse.dropWhile (fun c => c = '\r' ∨ c = '\n')).reverse

/-- Python `str.lstrip("\r\n")`. -/
def lstripRN (cs : List Char) : List Char := cs.dropWhile (fun c => c = '\r' ∨ c = '\n')

/-- Python `str.rstrip("\n")`. -/
def rstripNl (cs : List Char) : List Char := (cs.reverse.dropWhile (fun c => c = '\n')).reverse

/-- Python `str.lstrip("\n")`. -/
def lstripNl (cs : List Char) : List Char := cs.dropWhile (fun c => c = '\n')

/-- Split a character list on a separator character; mirrors Python
`str.split(sep)` for a one-character separator (the result is never empty,
and empty segments are kept). -/
def splitOnCh (sep : Char) : List Char → List (List Char)
  | [] => [[]]
  | c :: rest =>
    if c = sep then [] :: splitOnCh sep rest
    else
      match splitOnCh sep rest with
      | [] => [[c]]
      | seg :: segs => (c :: seg) :: segs

/-- Inverse of `splitOnCh`: join segments with the separator. -/
def joinWithCh (sep : Char) : List (List Char) → List Char
  | [] => []
  | [seg] => seg
  | seg :: rest => seg ++ sep :: joinWithCh sep rest

/-- Helper for `splitWsPy`: `acc` holds the current word, reversed. -/
def splitWsAux : List Char → List Char → List (List Char)
  | acc, [] => if acc = [] then [] else [acc.reverse]
  | acc, c :: rest =>
    if pyWs c then
      if acc = [] then splitWsAux [] rest else acc.reverse :: splitWsAux [] rest
    else splitWsAux (c :: acc) rest

/-- Python `str.split()` (split on whitespace runs, dropping empties). -/
def splitWsPy (cs : List Char) : List (List Char) := splitWsAux [] cs

/-- Lowercase a character list (`str.lower()`; ASCII range suffices for the
letters manipulated by the claims). -/
def lowerCl (cs : List Char) : List Char := cs.map Char.toLower

/-! ## Note-identifier validation and path construction

Source: `src/obsidian_vault/input_models.py` (`BaseNoteInput.validate_title`),
`src/obsidian_vault/core/vault_operations.py` (`construct_note_path`,
`normalize_note_identifier`) and the monolithic `src/obsidian_vault.py`
(`_normalize_note_identifier`). -/

/-- The `.md` suffix as characters. -/
def mdSuffix : List Char := ['.', 'm', 'd']

/-- `BaseNoteInput.validate_title` (input_models.py:51-111).  Returns the
normalized title or a validation error. -/
def validate_title (v : List Char) : Except String (List Char) :=
  let cleaned := stripPy v
  if cleaned = [] then .error "empty"
  else if (splitOnCh '/' cleaned).any (fun part => part = ['.'] ∨ part = ['.', '.']) then
    .error "traversal"
  else if cleaned.head? = some '/' then .error "absolute"
  else
    let cleaned2 := if mdSuffix.isSuffixOf cleaned then cleaned.take (cleaned.length - 3) else cleaned
    if cleaned2 = [] then .error "just md" else .ok cleaned2

/-- `pathlib` joining of path segments (none of which contains `/`): empty
and `"."` components are dropped, mirroring `PurePosixPath` semantics. -/
def pyPathSegs (segs : List (List Char)) : List (List Char) :=
  segs.filter (fun s => s ≠ [] ∧ s ≠ ['.'])

/-- A `Path` built from slash-free segments is never absolute on POSIX, so
the source's `relative.is_absolute()` guard can never fire; it is modelled
as the constant false test it is. -/
def pathIsAbsolute (_segs : List (List Char)) : Bool := false

/-- `construct_note_path` (core/vault_operations.py:20-54): split the
pre-validated identifier on `/`, append `.md` to the last segment, join. -/
def construct_note_path (identifier : List Char) : List (List Char) :=
  let parts := splitOnCh '/' identifier
  let leaf := parts.getLastD []
  let leafExt := leaf ++ mdSuffix
  if parts.length = 1 then pyPathSegs [leafExt]
  else pyPathSegs parts.dropLast ++ pyPathSegs [leafExt]

/-- `normalize_note_identifier` (core/vault_operations.py:57-96), the
package-level legacy normalizer: strips a (case-sensitive) `.md` suffix,
rejects `.`/`..` segments, then builds the relative path. -/
def normalize_note_identifier (identifier : List Char) : Except String (List (List Char)) :=
  let cleaned := stripPy identifier
  if cleaned = [] then .error "empty"
  else
    let cleaned := if mdSuffix.isSuffixOf cleaned then cleaned.take (cleaned.length - 3) else cleaned
    if (splitOnCh '/' cleaned).any (fun part => part = ['.'] ∨ part = ['.', '.']) then
      .error "traversal"
    else
      let relative := construct_note_path cleaned
      if pathIsAbsolute relative then .error "absolute" else .ok relative

/-- `_normalize_note_identifier` of the monolithic server
(obsidian_vault.py:220-256): strips the `.md` suffix case-insensitively,
drops and trims whitespace-only segments, rejects `.`/`..` segments. -/
def legacy_normalize_note_identifier (identifier : List Char) : Except String (List (List Char)) :=
  let cleaned := stripPy identifier
  if cleaned = [] then .error "empty"
  else
    let cleaned := if mdSuffix.isSuffixOf (lowerCl cleaned) then cleaned.take (cleaned.length - 3) else cleaned
    let parts := ((splitOnCh '/' cleaned).map stripPy).filter (fun seg => seg ≠ [])
    if parts = [] then .error "no segment"
    else if parts.any (fun part => part = ['.'] ∨ part = ['.', '.']) then .error "traversal"
    else
      let leaf := parts.getLastD []
      let leafExt := leaf ++ mdSuffix
      let relative := if parts.length = 1 then [leafExt] else parts.dropLast ++ [leafExt]
      if pathIsAbsolute relative then .error "absolute" else .ok relative

/-- Helper for `escapesRoot`: current depth below the root. -/
def escapesRootGo : Nat → List (List Char) → Bool
  | _, [] => false
  | depth, s :: rest =>
    if s = ['.', '.'] then
      (if depth = 0 then true else escapesRootGo (depth - 1) rest)
    else if s = ['.'] ∨ s = [] then escapesRootGo depth rest
    else escapesRootGo (depth + 1) rest

/-- Lexical escape check for a relative segment list resolved under a vault
root: walking the segments, `..` pops one level and escape occurs when a pop
is attempted at depth zero (`.` and empty segments do not change depth). -/
def escapesRoot (segs : List (List Char)) : Bool := escapesRootGo 0 segs

/-! ## Heading discovery

Source: `src/obsidian_vault/core/section_operations.py`.  The heading
pattern is `^(?P<hashes>#{1,6})\s+(?P<title>.+?)\s*$` with `re.MULTILINE`.
Because `\s` matches `\n`, a match can span line boundaries: the trailing
`\s*$` swallows whitespace-only lines following the title (the match ends
just before the last newline of that whitespace run, or at end of string
when the run reaches it), and the leading `\s+` can swallow the line break
after a bare run of hashes.  The functions below implement exactly this
behaviour; `_parse_headings` then extends the match end past a following
`"\n"` (section_operations.py:49-53; the `"\r\n"`/`"\r"` branches there are
unreachable because `\s*` is greedy and `$` only matches before `"\n"` or
at end of string). -/

/-- Number of leading characters of `cs` satisfying `p`. -/
def countLeading (p : Char → Bool) : List Char → Nat
  | [] => 0
  | c :: rest => if p c then countLeading p rest + 1 else 0

/-- Distance from the head of `cs` to its first `'\n'` (length if none). -/
def countUntilNl : List Char → Nat
  | [] => 0
  | c :: rest => if c = '\n' then 0 else countUntilNl rest + 1

/-- Index of the last `'\n'` in `cs`, if any. -/
def lastNlIdx : List Char → Option Nat
  | [] => none
  | c :: rest =>
    match lastNlIdx rest with
    | some k => some (k + 1)
    | none => if c = '\n' then some 0 else none

/-- Index of the last character of `cs` that is not `'\n'`, if any. -/
def lastNonNlIdx : List Char → Option Nat
  | [] => none
  | c :: rest =>
    match lastNonNlIdx rest with
    | some k => some (k + 1)
    | none => if c = '\n' then none else some 0

/-- A parsed markdown heading (the dictionaries built by `_parse_headings`):
level, raw title, normalized lookup key, and the byte offsets `start`/`stop`
bracketing the heading match (after the newline extension). -/
structure Heading where
  level : Nat
  title : List Char
  normalized : List Char
  start : Nat
  stop : Nat
deriving Repr, DecidableEq

/-- `_normalize_heading_key` (section_operations.py:28-30):
`" ".join(value.strip().split()).lower()`. -/
def normalize_heading_key (value : List Char) : List Char :=
  lowerCl (joinWithCh ' ' (splitWsPy (stripPy value)))

/-- Attempt to match the heading pattern at position `p` of `cs` (which
must be a line start; the anchor test is separate).  Returns
`(level, title group, stop)` where `stop` is the match end after
`_parse_headings`' newline extension. -/
def matchAt (cs : List Char) (p : Nat) : Option (Nat × List Char × Nat) :=
  let r := countLeading (fun c => c = '#') (cs.drop p)
  if 1 ≤ r ∧ r ≤ 6 then
    let q0 := p + r
    let w := countLeading pyWs (cs.drop q0)
    if 1 ≤ w then
      let m := q0 + w
      if m < cs.length then
        -- the whitespace run after the hashes ends at a visible character:
        -- the title is that character's line, with trailing whitespace
        -- stripped; `\s*$` then swallows whitespace up to the last newline
        -- before the next visible character (or to the end of the text).
        let lineLen := countUntilNl (cs.drop m)
        let titleGroup := rstripPy ((cs.drop m).take lineLen)
        let t := m + titleGroup.length
        let w2 := countLeading pyWs (cs.drop t)
        if t + w2 < cs.length then
          match lastNlIdx ((cs.drop t).take w2) with
          | some k => some (r, titleGroup, t + k + 1)
          | none => none
        else some (r, titleGroup, cs.length)
      else
        -- the whitespace run reaches the end of the text: the lazy title
        -- group backtracks to the last non-newline whitespace character.
        match lastNonNlIdx ((cs.drop (q0 + 1)).take (w - 1)) with
        | some k => some (r, [((cs.drop (q0 + 1)).take (w - 1)).getD k ' '], cs.length)
        | none => none
    else none
  else none

/-- `re.MULTILINE` start-of-line anchor: position 0 or just after `'\n'`. -/
def anchoredAt (cs : List Char) (p : Nat) : Bool :=
  p = 0 ∨ cs.get? (p - 1) = some '\n'

/-- Scan forward from position `p` (with `suf = cs.drop p`) for the first
anchored position where the heading pattern matches; mirrors how
`finditer` resumes scanning after the previous match. -/
def findHeadAux (cs : List Char) : List Char → Nat → Option (Nat × Nat × List Char × Nat)
  | [], _ => none
  | _ :: suf, p =>
    if anchoredAt cs p then
      match matchAt cs p with
      | some (lvl, ttl, stop) => some (p, lvl, ttl, stop)
      | none => findHeadAux cs suf (p + 1)
    else findHeadAux cs suf (p + 1)

def findHead (cs : List Char) (p : Nat) : Option (Nat × Nat × List Char × Nat) :=
  findHeadAux cs (cs.drop p) p

/-- The `finditer` loop of `_parse_headings` (section_operations.py:44-64),
with a structural fuel argument (every match advances the scan position by
at least two, so `cs.length + 1` fuel always suffices). -/
def parseLoop (cs : List Char) : Nat → Nat → List Heading
  | 0, _ => []
  | fuel + 1, p =>
    match findHead cs p with
    | none => []
    | some (st, lvl, ttl, stop) =>
      { level := lvl, title := stripPy ttl, normalized := normalize_heading_key (stripPy ttl),
        start := st, stop := stop } :: parseLoop cs fuel stop

/-- `_parse_headings` (section_operations.py:33-65). -/
def parse_headings (cs : List Char) : List Heading := parseLoop cs (cs.length + 1) 0

/-- Indexed first-match search used by `_locate_heading`'s loop. -/
def locateFrom (target : List Char) : Nat → List Heading → Option (Heading × Nat)
  | _, [] => none
  | i, h :: rest => if h.normalized = target then some (h, i) else locateFrom target (i + 1) rest

/-- `_locate_heading` (section_operations.py:68-89): first heading whose
normalized key equals the normalized query. -/
def locate_heading (text heading : List Char) : Option (Heading × Nat × List Heading) :=
  let hs := parse_headings text
  match locateFrom (normalize_heading_key heading) 0 hs with
  | some (h, i) => some (h, i, hs)
  | none => none

/-- The forward scan of `_section_bounds` over the headings after `index`. -/
def sectionBoundsGo (lvl sStart tl : Nat) : List Heading → Nat × Nat
  | [] => (sStart, tl)
  | h :: rest => if h.level ≤ lvl then (sStart, h.start) else sectionBoundsGo lvl sStart tl rest

/-- `_section_bounds` (section_operations.py:92-111).  The source indexes
`headings[index]` unconditionally; an out-of-range index (never used by the
callers) is mapped to `(0, 0)`. -/
def section_bounds (headings : List Heading) (index textLength : Nat) : Nat × Nat :=
  match headings.get? index with
  | some cur => sectionBoundsGo cur.level cur.stop textLength (headings.drop (index + 1))
  | none => (0, 0)

/-! ## Section operations

The pure text-transformation cores of `append_to_section`,
`replace_section` and `delete_section`
(src/obsidian_vault/core/section_operations.py).  File input/output is
abstracted away: each function maps the note's current text to the result
record; `wrote = false` encodes the early return that skips
`target_path.write_text`, and a located-heading failure is `none`
(the source raises `ValueError`). -/

/-- Result of a section operation: new note text, whether the file was
written, the reported status string, and the resolved heading title. -/
structure SectionResult where
  text : List Char
  wrote : Bool
  status : String
  heading : List Char
deriving Repr, DecidableEq

/-- `append_to_section` (section_operations.py:185-279), text core
(lines 213-264). -/
def append_to_section (text heading content : List Char) : Option SectionResult :=
  match locate_heading text heading with
  | none => none
  | some (headingInfo, index, headings) =>
    let insertionPos := match headings.get? (index + 1) with
      | some nextHeading => nextHeading.start
      | none => text.length
    let sectionBody := (text.take insertionPos).drop headingInfo.stop
    let before := text.take insertionPos
    let after := text.drop insertionPos
    let insertion := rstripRN content
    if insertion = [] then
      some { text := text, wrote := false, status := "section_appended", heading := headingInfo.title }
    else
      let insertion :=
        if sectionBody ≠ [] then
          if ['\n', '\n'].isSuffixOf sectionBody then lstripNl insertion
          else if sectionBody.getLast? = some '\n' then
            if insertion.head? ≠ some '\n' then '\n' :: insertion else insertion
          else '\n' :: '\n' :: lstripNl insertion
        else
          if before.getLast? ≠ some '\n' then '\n' :: lstripNl insertion else insertion
      let hasFollowingContent := after ≠ []
      let insertion :=
        if hasFollowingContent then
          let insertion := if insertion.getLast? ≠ some '\n' then insertion ++ ['\n'] else insertion
          if after.head? ≠ some '\n' ∧ after.head? ≠ some '\r' then insertion ++ ['\n'] else insertion
        else
          if insertion.getLast? ≠ some '\n' then insertion ++ ['\n'] else insertion
      some { text := before ++ insertion ++ after, wrote := true,
             status := "section_appended", heading := headingInfo.title }

/-- `replace_section` (section_operations.py:282-351), text core
(lines 310-336). -/
def replace_section (text heading content : List Char) : Option SectionResult :=
  match locate_heading text heading with
  | none => none
  | some (headingInfo, index, headings) =>
    let bounds := section_bounds headings index text.length
    let before := text.take bounds.1
    let after := text.drop bounds.2
    let replacement := rstripRN content
    let replacement :=
      if before ≠ [] ∧ replacement ≠ [] ∧ before.getLast? ≠ some '\n' ∧ replacement.head? ≠ some '\n'
      then '\n' :: replacement else replacement
    let after := lstripRN after
    let hasFollowingContent := after ≠ []
    let replacement :=
      if hasFollowingContent then
        let replacement := rstripNl replacement
        if replacement ≠ [] then replacement ++ ['\n', '\n'] else ['\n', '\n']
      else if replacement ≠ [] ∧ replacement.getLast? ≠ some '\n' then replacement ++ ['\n']
      else replacement
    some { text := before ++ replacement ++ after, wrote := true,
           status := "section_replaced", heading := headingInfo.title }

/-- Helper for `collapseNewlines`: `pending` counts the newlines of the
current run; a run of three or more is emitted as exactly two. -/
def collapseAux : Nat → List Char → List Char
  | pending, [] => if pending ≥ 3 then ['\n', '\n'] else List.replicate pending '\n'
  | pending, c :: rest =>
    if c = '\n' then collapseAux (pending + 1) rest
    else (if pending ≥ 3 then ['\n', '\n'] else List.replicate pending '\n') ++ c :: collapseAux 0 rest

/-- `re.sub(r"\n{3,}", "\n\n", updated)` (section_operations.py:393): every
maximal run of three or more newlines becomes exactly two. -/
def collapseNewlines (cs : List Char) : List Char := collapseAux 0 cs

/-- `delete_section` (section_operations.py:354-409), text core
(lines 380-393). -/
def delete_section (text heading : List Char) : Option SectionResult :=
  match locate_heading text heading with
  | none => none
  | some (headingInfo, index, headings) =>
    let bounds := section_bounds headings index text.length
    let updated := text.take headingInfo.start ++ text.drop bounds.2
    let updated := collapseNewlines updated
    some { text := updated, wrote := true, status := "section_deleted", heading := headingInfo.title }

/-- Scanner for a run of three consecutive newlines (a `\n{3,}` match). -/
def hasTripleNl : List Char → Bool
  | a :: b :: c :: rest =>
    (decide (a = '\n') && decide (b = '\n') && decide (c = '\n')) || hasTripleNl (b :: c :: rest)
  | _ => false

/-- Claim-side definition for C2, following the claim's words: the offset
just past the line containing offset `start`, including its `'\n'` line
terminator (the text length when that line is unterminated). -/
def line_end_with_terminator (cs : List Char) (start : Nat) : Nat :=
  if start + countUntilNl (cs.drop start) < cs.length
  then start + countUntilNl (cs.drop start) + 1
  else cs.length

/-! ## Frontmatter metadata values

Source: `src/obsidian_vault/core/frontmatter_operations.py`.  Metadata is
the YAML-safe value universe enforced by `_ensure_valid_yaml`: strings,
integers, booleans, null, lists and nested string-keyed maps (dates are
already coerced to strings by the sanitizer and are not modelled).  Python
dicts are ordered, so a map is an association list whose keys are unique in
any value produced by the YAML parser. -/

inductive Yv where
  | s (v : List Char)
  | i (v : Int)
  | b (v : Bool)
  | null
  | list (items : List Yv)
  | map (entries : List (List Char × Yv))
deriving Repr

/-- Ordered string-keyed metadata dictionary. -/
abbrev Meta := List (List Char × Yv)

/-- Python `dict` lookup (first match; keys are unique in real dicts). -/
def lookupKey (k : List Char) : Meta → Option Yv
  | [] => none
  | (k2, v) :: rest => if k2 = k then some v else lookupKey k rest

/-- Python `dict` assignment `d[k] = v`: replace in place, else append. -/
def setKey (k : List Char) (v : Yv) : Meta → Meta
  | [] => [(k, v)]
  | (k2, v2) :: rest => if k2 = k then (k, v) :: rest else (k2, v2) :: setKey k v rest

mutual
/-- `_deep_merge_dicts` (frontmatter_operations.py:140-153): iterate the
update entries in order, merging recursively when both sides are maps and
overwriting wholesale otherwise.  (The source deep-copies `base` first;
values here are immutable, so the copy is the identity.) -/
def deep_merge_dicts (base : Meta) : Meta → Meta
  | [] => base
  | (k, v) :: rest => deep_merge_dicts (mergeOne base k v) rest

/-- One iteration of the `_deep_merge_dicts` loop body. -/
def mergeOne (base : Meta) (k : List Char) (v : Yv) : Meta :=
  match lookupKey k base, v with
  | some (Yv.map b2), Yv.map u2 => setKey k (Yv.map (deep_merge_dicts b2 u2)) base
  | _, _ => setKey k v base
end

mutual
/-- Python `==` on metadata values (structural; sound for the equality
checks the operations perform). -/
def yvBeq : Yv → Yv → Bool
  | Yv.s a, Yv.s b => a = b
  | Yv.i a, Yv.i b => a = b
  | Yv.b a, Yv.b b => a = b
  | Yv.null, Yv.null => true
  | Yv.list a, Yv.list b => yvListBeq a b
  | Yv.map a, Yv.map b => metaBeq a b
  | _, _ => false

def yvListBeq : List Yv → List Yv → Bool
  | [], [] => true
  | a :: as2, b :: bs => yvBeq a b && yvListBeq as2 bs
  | _, _ => false

def metaBeq : Meta → Meta → Bool
  | [], [] => true
  | (k1, v1) :: as2, (k2, v2) :: bs => decide (k1 = k2) && yvBeq v1 v2 && metaBeq as2 bs
  | _, _ => false
end

mutual
/-- The `_sanitize` closure of `_ensure_valid_yaml`
(frontmatter_operations.py:104-118): scalars pass through, lists are
sanitized elementwise, nested maps require keys that are nonempty after
stripping.  (`datetime`/`date` coercion has no preimage in `Yv`.)
`none` models the raised `ValueError`. -/
def sanitizeYv : Yv → Option Yv
  | Yv.s v => some (Yv.s v)
  | Yv.i v => some (Yv.i v)
  | Yv.b v => some (Yv.b v)
  | Yv.null => some Yv.null
  | Yv.list items => (sanitizeYvList items).map Yv.list
  | Yv.map entries => (sanitizeEntries entries).map Yv.map

def sanitizeYvList : List Yv → Option (List Yv)
  | [] => some []
  | v :: rest =>
    match sanitizeYv v, sanitizeYvList rest with
    | some v2, some rest2 => some (v2 :: rest2)
    | _, _ => none

def sanitizeEntries : Meta → Option Meta
  | [] => some []
  | (k, v) :: rest =>
    if stripPy k = [] then none
    else
      match sanitizeYv v, sanitizeEntries rest with
      | some v2, some rest2 => some ((k, v2) :: rest2)
      | _, _ => none
end

/-- `MAX_FRONTMATTER_BYTES` (constants.py). -/
def MAX_FRONTMATTER_BYTES : Nat := 10240

/-! ## Frontmatter codec

Modelled from the spec: the parsing/serialization of the YAML block is done
by the third-party `python-frontmatter`/`PyYAML` libraries, which are not
part of this repository.  Following the spec's words, `serialize` "emits a
YAML block delimited by `---` lines followed by body" (and returns the body
unchanged when the metadata is empty), and `parse` recognises a leading
block and otherwise returns empty metadata with the body unchanged; a
malformed block is a parse failure (`none`).  Scalar fields are rendered
one per line as `key: value`. -/

/-- Helper: digits accumulate left to right; `none` on a non-digit. -/
def digitsToNatAux (acc : Nat) : List Char → Option Nat
  | [] => some acc
  | c :: rest => if c.isDigit then digitsToNatAux (acc * 10 + (c.toNat - 48)) rest else none

/-- Parse a nonempty all-digit list. -/
def digitsToNat : List Char → Option Nat
  | [] => none
  | cs => digitsToNatAux 0 cs

/-- Modelled from the spec: integer scalar recognition of the YAML subset. -/
def parseIntCh : List Char → Option Int
  | '-' :: rest => (digitsToNat rest).map (fun n => -(n : Int))
  | cs => (digitsToNat cs).map (fun n => (n : Int))

/-- Modelled from the spec: render a scalar metadata value (lists and maps
are outside the modelled flat codec and render as empty). -/
def scalarDump : Yv → List Char
  | Yv.s v => v
  | Yv.i v => (toString v).toList
  | Yv.b true => "true".toList
  | Yv.b false => "false".toList
  | Yv.null => "null".toList
  | Yv.list _ => []
  | Yv.map _ => []

/-- Modelled from the spec: read a scalar back. -/
def scalarRead (sv : List Char) : Yv :=
  if sv = "true".toList then Yv.b true
  else if sv = "false".toList then Yv.b false
  else if sv = "null".toList then Yv.null
  else
    match parseIntCh sv with
    | some n => Yv.i n
    | none => Yv.s sv

/-- One serialized metadata line: `key: value\n`. -/
def dumpEntry (e : List Char × Yv) : List Char :=
  e.1 ++ [':', ' '] ++ scalarDump e.2 ++ ['\n']

/-- The serialized YAML document body, one line per field. -/
def dumpMeta (md : Meta) : List Char := (md.map dumpEntry).flatten

/-- The opening/closing delimiter line of a frontmatter block. -/
def fmDelim : List Char := ['-', '-', '-', '\n']

/-- `_serialize_frontmatter` (frontmatter_operations.py:69-84), with the
external `frontmatter.dumps` modelled from the spec: empty metadata returns
the body unchanged, otherwise a `---`-delimited block precedes the body. -/
def serialize_frontmatter (metadata : Meta) (content : List Char) : List Char :=
  if metadata.isEmpty then content
  else fmDelim ++ dumpMeta metadata ++ fmDelim ++ content

/-- Read one `key: value` metadata line (split at the first colon, which
must be followed by a space). -/
def readEntryLine (line : List Char) : Option (List Char × Yv) :=
  let key := line.takeWhile (fun c => c ≠ ':')
  match line.drop key.length with
  | ':' :: ' ' :: value => some (key, scalarRead value)
  | _ => none

/-- Consume metadata lines until the closing `---` line; the remaining
lines form the body.  `none` models a malformed or unclosed block. -/
def readFmLines : List (List Char) → Option (Meta × List (List Char))
  | [] => none
  | line :: rest =>
    if line = ['-', '-', '-'] then some ([], rest)
    else
      match readEntryLine line, readFmLines rest with
      | some e, some (md, body) => some (e :: md, body)
      | _, _ => none

/-- `_parse_frontmatter` (frontmatter_operations.py:31-66), with the
external `frontmatter.loads` modelled from the spec: a block is present
exactly when the text starts with a `---` line; without one the metadata is
empty and the body is the unchanged text. -/
def parse_frontmatter (text : List Char) : Option (Meta × List Char) :=
  if fmDelim.isPrefixOf text then
    match readFmLines (splitOnCh '\n' (text.drop 4)) with
    | some (md, bodyLines) => some (md, joinWithCh '\n' bodyLines)
    | none => none
  else some ([], text)

/-- `_ensure_valid_yaml` (frontmatter_operations.py:87-137): sanitize all
entries (top-level keys use the same nonempty-after-strip rule), then
enforce the serialized size cap. -/
def ensure_valid_yaml (metadata : Meta) : Option Meta :=
  match sanitizeEntries metadata with
  | none => none
  | some sanitized =>
    if (dumpMeta sanitized).length > MAX_FRONTMATTER_BYTES then none else some sanitized

/-- `update_frontmatter` (frontmatter_operations.py:232-295), text core:
sanitize the update payload, parse the note, deep-merge; an unchanged merge
reports `"unchanged"` without writing (the returned text is the input
text), otherwise the re-sanitized merge is serialized and written. -/
def update_frontmatter (text : List Char) (fm : Meta) : Option (List Char × String) :=
  match ensure_valid_yaml fm with
  | none => none
  | some updates =>
    match parse_frontmatter text with
    | none => none
    | some (currentMetadata, content) =>
      let merged := deep_merge_dicts currentMetadata updates
      if metaBeq merged currentMetadata then some (text, "unchanged")
      else
        match ensure_valid_yaml merged with
        | none => none
        | some mergedSanitized => some (serialize_frontmatter mergedSanitized content, "updated")

/-! ## Dictionary lemmas for the deep merge -/

/-- The value `_deep_merge_dicts` stores for one update entry: the
recursive merge when both sides are maps, the update value wholesale
otherwise. -/
def mergeVal : Option Yv → Yv → Yv
  | some (Yv.map b2), Yv.map u2 => Yv.map (deep_merge_dicts b2 u2)
  | _, v => v

theorem lookup_setKey_self (l : Meta) (k : List Char) (v : Yv) :
    lookupKey k (setKey k v l) = some v := by
  induction l with
  | nil => simp [setKey, lookupKey]
  | cons e rest ih =>
    obtain ⟨k2, v2⟩ := e
    by_cases h : k2 = k <;> simp [setKey, lookupKey, h, ih]

theorem lookup_setKey_other (l : Meta) (k k2 : List Char) (v : Yv) (h : k2 ≠ k) :
    lookupKey k2 (setKey k v l) = lookupKey k2 l := by
  have hk : k ≠ k2 := Ne.symm h
  induction l with
  | nil => simp [setKey, lookupKey, hk]
  | cons e rest ih =>
    obtain ⟨k3, v3⟩ := e
    by_cases h3 : k3 = k
    · subst h3
      simp [setKey, lookupKey, hk]
    · simp [setKey, lookupKey, h3, ih]

theorem mergeOne_eq (b : Meta) (k : List Char) (v : Yv) :
    mergeOne b k v = setKey k (mergeVal (lookupKey k b) v) b := by
  unfold mergeOne
  rcases lookupKey k b with _ | w
  · cases v <;> rfl
  · cases w <;> cases v <;> rfl

theorem lookup_mergeOne_self (b : Meta) (k : List Char) (v : Yv) :
    lookupKey k (mergeOne b k v) = some (mergeVal (lookupKey k b) v) := by
  rw [mergeOne_eq, lookup_setKey_self]

theorem lookup_mergeOne_other (b : Meta) (k k2 : List Char) (v : Yv) (h : k2 ≠ k) :
    lookupKey k2 (mergeOne b k v) = lookupKey k2 b := by
  rw [mergeOne_eq, lookup_setKey_other _ _ _ _ h]

theorem lookup_merge_not_mem (u : Meta) (b : Meta) (k : List Char)
    (h : k ∉ u.map Prod.fst) : lookupKey k (deep_merge_dicts b u) = lookupKey k b := by
  induction u generalizing b with
  | nil => rw [deep_merge_dicts]
  | cons e rest ih =>
    obtain ⟨k1, v1⟩ := e
    simp only [List.map_cons, List.mem_cons] at h
    push_neg at h
    rw [deep_merge_dicts, ih _ h.2, lookup_mergeOne_other _ _ _ _ h.1]

/-- Lookup characterization of `_deep_merge_dicts`: an update key maps to
the merged value, any other key keeps the base value. -/
theorem deep_merge_lookup (u : Meta) (hnd : (u.map Prod.fst).Nodup) (b : Meta) (k : List Char) :
    lookupKey k (deep_merge_dicts b u) =
      match lookupKey k u with
      | none => lookupKey k b
      | some v => some (mergeVal (lookupKey k b) v) := by
  induction u generalizing b with
  | nil => rw [deep_merge_dicts]; rfl
  | cons e rest ih =>
    obtain ⟨k1, v1⟩ := e
    simp only [List.map_cons, List.nodup_cons] at hnd
    by_cases hk : k1 = k
    · subst hk
      have hnot : k1 ∉ rest.map Prod.fst := hnd.1
      rw [deep_merge_dicts, lookup_merge_not_mem _ _ _ hnot, lookup_mergeOne_self]
      simp [lookupKey]
    · rw [deep_merge_dicts, ih hnd.2]
      have : lookupKey k (mergeOne b k1 v1) = lookupKey k b :=
        lookup_mergeOne_other _ _ _ _ (fun hh => hk hh.symm)
      simp [lookupKey, hk, this]

/-! ## Idempotence machinery for the deep merge -/

theorem setKey_lookup_self (l : Meta) (k : List Char) (v : Yv)
    (h : lookupKey k l = some v) : setKey k v l = l := by
  induction l with
  | nil => simp [lookupKey] at h
  | cons e rest ih =>
    obtain ⟨k2, v2⟩ := e
    by_cases hk : k2 = k
    · subst hk
      simp [lookupKey] at h
      simp [setKey, h]
    · simp [lookupKey, hk] at h
      simp [setKey, hk, ih h]

theorem setKey_not_mem (l : Meta) (k : List Char) (v : Yv)
    (h : lookupKey k l = none) : setKey k v l = l ++ [(k, v)] := by
  induction l with
  | nil => simp [setKey]
  | cons e rest ih =>
    obtain ⟨k2, v2⟩ := e
    by_cases hk : k2 = k
    · simp [lookupKey, hk] at h
    · simp [lookupKey, hk] at h
      simp [setKey, hk, ih h]

theorem lookup_append_none (b : Meta) (e : List Char × Yv) (k : List Char)
    (hb : lookupKey k b = none) (hk : e.1 ≠ k) :
    lookupKey k (b ++ [e]) = none := by
  induction b with
  | nil => simp [lookupKey, hk]
  | cons e2 rest ih =>
    obtain ⟨k2, v2⟩ := e2
    by_cases h2 : k2 = k
    · simp [lookupKey, h2] at hb
    · simp [lookupKey, h2] at hb ⊢
      exact ih hb

theorem mergeVal_none (v : Yv) : mergeVal none v = v := by cases v <;> rfl

/-- Merging updates whose keys are all absent from the base appends them. -/
theorem deep_merge_disjoint (u : Meta) (b : Meta)
    (habs : ∀ e ∈ u, lookupKey e.1 b = none)
    (hnd : (u.map Prod.fst).Nodup) : deep_merge_dicts b u = b ++ u := by
  induction u generalizing b with
  | nil => rw [deep_merge_dicts]; simp
  | cons e us ih =>
    obtain ⟨k, v⟩ := e
    simp only [List.map_cons, List.nodup_cons] at hnd
    have hk : lookupKey k b = none := habs (k, v) (by simp)
    have h1 : mergeOne b k v = b ++ [(k, v)] := by
      rw [mergeOne_eq, hk, mergeVal_none, setKey_not_mem _ _ _ hk]
    rw [deep_merge_dicts, h1, ih]
    · simp
    · intro e2 he2
      refine lookup_append_none _ _ _ (habs e2 (by simp [he2])) ?_
      intro hcon
      apply hnd.1
      have hm : e2.1 ∈ us.map Prod.fst := List.mem_map_of_mem Prod.fst he2
      have hk2 : k = e2.1 := hcon
      rw [hk2]
      exact hm
    · exact hnd.2

/-- Merging into an empty base reproduces the updates. -/
theorem deep_merge_nil (u : Meta) (hnd : (u.map Prod.fst).Nodup) :
    deep_merge_dicts [] u = u := by
  have := deep_merge_disjoint u [] (by intro e _; rfl) hnd
  simpa using this

mutual
/-- Key uniqueness at every map level of a value (what Python `dict`s
guarantee for parsed metadata and update payloads). -/
def yvNodup : Yv → Bool
  | Yv.map es => metaNodup es
  | _ => true

def metaNodup : Meta → Bool
  | [] => true
  | (k, v) :: rest =>
    decide (k ∉ rest.map Prod.fst) && yvNodup v && metaNodup rest
end

theorem metaNodup_keys (u : Meta) (h : metaNodup u = true) : (u.map Prod.fst).Nodup := by
  induction u with
  | nil => simp
  | cons e rest ih =>
    obtain ⟨k, v⟩ := e
    rw [metaNodup] at h
    simp only [Bool.and_eq_true, decide_eq_true_eq] at h
    simp only [List.map_cons, List.nodup_cons]
    exact ⟨h.1.1, ih h.2⟩

/-- Size-bounded core of the idempotence proof for `_deep_merge_dicts`. -/
theorem deep_merge_idem_aux (n : Nat) : ∀ (u : Meta), sizeOf u ≤ n → metaNodup u = true →
    ∀ b, deep_merge_dicts (deep_merge_dicts b u) u = deep_merge_dicts b u := by
  induction n using Nat.strong_induction_on with
  | _ n ih =>
    intro u hsz hnd b
    match u, hnd with
    | [], _ => rw [deep_merge_dicts]
    | (k, v) :: us, hnd =>
      rw [metaNodup] at hnd
      simp only [Bool.and_eq_true, decide_eq_true_eq] at hnd
      obtain ⟨⟨hk, hv⟩, hus⟩ := hnd
      have hszcons : 1 + sizeOf (k, v) + sizeOf us ≤ n := by
        simpa using hsz
      have hszus : sizeOf us < n := by
        have h2 : sizeOf (k, v) = 1 + sizeOf k + sizeOf v := by simp
        omega
      rw [deep_merge_dicts, deep_merge_dicts]
      have hW : lookupKey k (deep_merge_dicts (mergeOne b k v) us) =
          some (mergeVal (lookupKey k b) v) := by
        rw [lookup_merge_not_mem us _ k hk, lookup_mergeOne_self]
      have hstep : mergeOne (deep_merge_dicts (mergeOne b k v) us) k v =
          deep_merge_dicts (mergeOne b k v) us := by
        rw [mergeOne_eq, hW]
        have hfix : mergeVal (some (mergeVal (lookupKey k b) v)) v =
            mergeVal (lookupKey k b) v := by
          cases v with
          | map uu =>
            have huu : metaNodup uu = true := by rw [yvNodup] at hv; exact hv
            have hszuu : sizeOf uu < n := by
              have h1 : sizeOf (k, Yv.map uu) = 1 + sizeOf k + (1 + sizeOf uu) := by simp
              omega
            have hself : deep_merge_dicts uu uu = uu := by
              have h1 := ih (sizeOf uu) hszuu uu (Nat.le_refl _) huu []
              rwa [deep_merge_nil uu (metaNodup_keys uu huu)] at h1
            rcases lookupKey k b with _ | w
            · show Yv.map (deep_merge_dicts uu uu) = Yv.map uu
              rw [hself]
            · cases w with
              | map bb =>
                show Yv.map (deep_merge_dicts (deep_merge_dicts bb uu) uu) =
                  Yv.map (deep_merge_dicts bb uu)
                rw [ih (sizeOf uu) hszuu uu (Nat.le_refl _) huu bb]
              | s a => show Yv.map (deep_merge_dicts uu uu) = Yv.map uu; rw [hself]
              | i a => show Yv.map (deep_merge_dicts uu uu) = Yv.map uu; rw [hself]
              | b a => show Yv.map (deep_merge_dicts uu uu) = Yv.map uu; rw [hself]
              | null => show Yv.map (deep_merge_dicts uu uu) = Yv.map uu; rw [hself]
              | list a => show Yv.map (deep_merge_dicts uu uu) = Yv.map uu; rw [hself]
          | s a => rcases lookupKey k b with _ | w
                   · rfl
                   · cases w <;> rfl
          | i a => rcases lookupKey k b with _ | w
                   · rfl
                   · cases w <;> rfl
          | b a => rcases lookupKey k b with _ | w
                   · rfl
                   · cases w <;> rfl
          | null => rcases lookupKey k b with _ | w
                    · rfl
                    · cases w <;> rfl
          | list a => rcases lookupKey k b with _ | w
                      · rfl
                      · cases w <;> rfl
        rw [hfix]
        exact setKey_lookup_self _ _ _ hW
      rw [hstep]
      exact ih (sizeOf us) hszus us (Nat.le_refl _) hus (mergeOne b k v)

/-- `_deep_merge_dicts` is idempotent in its update argument. -/
theorem deep_merge_idem (u : Meta) (hnd : metaNodup u = true) (b : Meta) :
    deep_merge_dicts (deep_merge_dicts b u) u = deep_merge_dicts b u :=
  deep_merge_idem_aux (sizeOf u) u (Nat.le_refl _) hnd b

/-- Reflexivity of the modelled Python `==` on metadata (size-bounded core
covering the three mutual comparators). -/
theorem beq_self_aux (n : Nat) :
    (∀ v : Yv, sizeOf v ≤ n → yvBeq v v = true) ∧
    (∀ l : List Yv, sizeOf l ≤ n → yvListBeq l l = true) ∧
    (∀ m : Meta, sizeOf m ≤ n → metaBeq m m = true) := by
  induction n using Nat.strong_induction_on with
  | _ n ih =>
    refine ⟨?_, ?_, ?_⟩
    · intro v hv
      cases v with
      | s a => simp [yvBeq]
      | i a => simp [yvBeq]
      | b a => simp [yvBeq]
      | null => simp [yvBeq]
      | list items =>
        have hsz : sizeOf items < n := by
          have h1 : sizeOf (Yv.list items) = 1 + sizeOf items := by simp
          omega
        rw [yvBeq]
        exact (ih (sizeOf items) hsz).2.1 items (Nat.le_refl _)
      | map entries =>
        have hsz : sizeOf entries < n := by
          have h1 : sizeOf (Yv.map entries) = 1 + sizeOf entries := by simp
          omega
        rw [yvBeq]
        exact (ih (sizeOf entries) hsz).2.2 entries (Nat.le_refl _)
    · intro l hl
      cases l with
      | nil => rw [yvListBeq]
      | cons a as2 =>
        have h1 : sizeOf (a :: as2) = 1 + sizeOf a + sizeOf as2 := by simp
        have hsa : sizeOf a < n := by omega
        have hsas : sizeOf as2 < n := by omega
        rw [yvListBeq, Bool.and_eq_true]
        exact ⟨(ih (sizeOf a) hsa).1 a (Nat.le_refl _),
          (ih (sizeOf as2) hsas).2.1 as2 (Nat.le_refl _)⟩
    · intro m hm
      cases m with
      | nil => rw [metaBeq]
      | cons e rest =>
        obtain ⟨k, v⟩ := e
        have h1 : sizeOf ((k, v) :: rest) = 1 + (1 + sizeOf k + sizeOf v) + sizeOf rest := by simp
        have hsv : sizeOf v < n := by omega
        have hsr : sizeOf rest < n := by omega
        rw [metaBeq, Bool.and_eq_true, Bool.and_eq_true]
        refine ⟨⟨by simp, (ih (sizeOf v) hsv).1 v (Nat.le_refl _)⟩,
          (ih (sizeOf rest) hsr).2.2 rest (Nat.le_refl _)⟩

/-- `metaBeq` is reflexive. -/
theorem metaBeq_self (m : Meta) : metaBeq m m = true :=
  (beq_self_aux (sizeOf m)).2.2 m (Nat.le_refl _)

/-! ## Codec applicability and the parse/serialize round trip -/

/-- A key the modelled codec stores faithfully: no colon or newline, and
nonempty after stripping (the sanitizer's key rule). -/
def keyFits (k : List Char) : Bool :=
  k.all (fun c => ¬(c = ':') ∧ ¬(c = '\n')) && decide (stripPy k ≠ [])

/-- A scalar value the modelled codec stores faithfully (its rendered form
reads back as the same value and contains no newline). -/
def scalarFits : Yv → Bool
  | Yv.s str => str.all (fun c => ¬(c = '\n')) &&
      decide (str ≠ "true".toList) && decide (str ≠ "false".toList) &&
      decide (str ≠ "null".toList) && decide (parseIntCh str = none)
  | Yv.i n => decide (parseIntCh ((toString n).toList) = some n) &&
      ((toString n).toList).all (fun c => ¬(c = '\n'))
  | Yv.b _ => true
  | Yv.null => true
  | Yv.list _ => false
  | Yv.map _ => false

/-- Metadata within the modelled flat codec. -/
def metaFits (md : Meta) : Bool := md.all (fun e => keyFits e.1 && scalarFits e.2)

theorem scalarRead_dump (v : Yv) (h : scalarFits v = true) :
    scalarRead (scalarDump v) = v := by
  cases v with
  | s str =>
    rw [scalarFits] at h
    simp only [Bool.and_eq_true, decide_eq_true_eq] at h
    obtain ⟨⟨⟨⟨_, h1⟩, h2⟩, h3⟩, h4⟩ := h
    rw [scalarDump, scalarRead, if_neg h1, if_neg h2, if_neg h3, h4]
  | i n =>
    rw [scalarFits] at h
    simp only [Bool.and_eq_true, decide_eq_true_eq] at h
    obtain ⟨h1, _⟩ := h
    have ht : (toString n).toList ≠ "true".toList := by
      intro hc; rw [hc] at h1; simp [parseIntCh, digitsToNat, digitsToNatAux] at h1
    have hf : (toString n).toList ≠ "false".toList := by
      intro hc; rw [hc] at h1; simp [parseIntCh, digitsToNat, digitsToNatAux] at h1
    have hn : (toString n).toList ≠ "null".toList := by
      intro hc; rw [hc] at h1; simp [parseIntCh, digitsToNat, digitsToNatAux] at h1
    rw [scalarDump, scalarRead, if_neg ht, if_neg hf, if_neg hn, h1]
  | b bv => cases bv <;> rfl
  | null => rfl
  | list items => rw [scalarFits] at h; exact absurd h (by simp)
  | map entries => rw [scalarFits] at h; exact absurd h (by simp)

theorem scalarDump_no_nl (v : Yv) (h : scalarFits v = true) :
    ∀ c ∈ scalarDump v, c ≠ '\n' := by
  cases v with
  | s str =>
    rw [scalarFits] at h
    simp only [Bool.and_eq_true, List.all_eq_true, decide_eq_true_eq] at h
    intro c hc
    exact h.1.1.1.1 c hc
  | i n =>
    rw [scalarFits] at h
    simp only [Bool.and_eq_true, List.all_eq_true, decide_eq_true_eq] at h
    intro c hc
    exact h.2 c hc
  | b bv => cases bv <;> decide
  | null => decide
  | list items => rw [scalarFits] at h; exact absurd h (by simp)
  | map entries => rw [scalarFits] at h; exact absurd h (by simp)

theorem splitOnCh_ne_nil (sep : Char) (cs : List Char) : splitOnCh sep cs ≠ [] := by
  cases cs with
  | nil => simp [splitOnCh]
  | cons c rest =>
    rw [splitOnCh]
    by_cases h : c = sep
    · simp [h]
    · simp only [if_neg h]
      rcases splitOnCh sep rest with _ | ⟨seg, segs⟩ <;> simp

theorem joinWithCh_cons_cons (sep : Char) (c : Char) (seg : List Char) (segs : List (List Char)) :
    joinWithCh sep ((c :: seg) :: segs) = c :: joinWithCh sep (seg :: segs) := by
  cases segs <;> rfl

theorem joinWithCh_splitOnCh (sep : Char) (cs : List Char) :
    joinWithCh sep (splitOnCh sep cs) = cs := by
  induction cs with
  | nil => rfl
  | cons c rest ih =>
    rw [splitOnCh]
    by_cases h : c = sep
    · subst h
      simp only [if_pos rfl]
      rcases hs : splitOnCh c rest with _ | ⟨seg, segs⟩
      · exact absurd hs (splitOnCh_ne_nil c rest)
      · rw [hs] at ih
        show joinWithCh c ([] :: seg :: segs) = c :: rest
        show [] ++ c :: joinWithCh c (seg :: segs) = c :: rest
        rw [List.nil_append, ih]
    · simp only [if_neg h]
      rcases hs : splitOnCh sep rest with _ | ⟨seg, segs⟩
      · exact absurd hs (splitOnCh_ne_nil sep rest)
      · rw [hs] at ih
        rw [joinWithCh_cons_cons, ih]

theorem splitOnCh_append_no_sep (sep : Char) (xs ys : List Char)
    (h : ∀ x ∈ xs, x ≠ sep) :
    splitOnCh sep (xs ++ sep :: ys) = xs :: splitOnCh sep ys := by
  induction xs with
  | nil => simp [splitOnCh]
  | cons x xs2 ih =>
    have hx : x ≠ sep := h x (by simp)
    have ih2 := ih (fun c hc => h c (by simp [hc]))
    rw [List.cons_append, splitOnCh, if_neg hx, ih2]

theorem takeWhile_append_stop (p : Char → Bool) (k rest : List Char) (c0 : Char)
    (hk : ∀ c ∈ k, p c = true) (hc : p c0 = false) :
    (k ++ c0 :: rest).takeWhile p = k := by
  induction k with
  | nil => simp [List.takeWhile, hc]
  | cons c k2 ih =>
    have h1 : p c = true := hk c (by simp)
    have ih2 := ih (fun x hx => hk x (by simp [hx]))
    simp [List.takeWhile, h1, ih2]

/-- The visible (newline-free) part of one serialized metadata line. -/
def entryLine (e : List Char × Yv) : List Char := e.1 ++ [':', ' '] ++ scalarDump e.2

theorem entryLine_no_nl (e : List Char × Yv) (hk : keyFits e.1 = true)
    (hv : scalarFits e.2 = true) : ∀ c ∈ entryLine e, c ≠ '\n' := by
  obtain ⟨k, v⟩ := e
  intro c hc
  have hsplit : c ∈ k ∨ c ∈ [':', ' '] ∨ c ∈ scalarDump v := by
    rw [entryLine] at hc
    simpa [List.mem_append, or_assoc] using hc
  rcases hsplit with hck | hcm | hcd
  · rw [keyFits] at hk
    simp only [Bool.and_eq_true, List.all_eq_true, decide_eq_true_eq] at hk
    exact (hk.1 c hck).2
  · rcases List.mem_cons.mp hcm with h1 | h1
    · subst h1; decide
    · simp only [List.mem_singleton] at h1; subst h1; decide
  · exact scalarDump_no_nl v hv c hcd

theorem readEntryLine_entryLine (e : List Char × Yv) (hk : keyFits e.1 = true)
    (hv : scalarFits e.2 = true) : readEntryLine (entryLine e) = some e := by
  obtain ⟨k, v⟩ := e
  rw [keyFits] at hk
  simp only [Bool.and_eq_true, List.all_eq_true, decide_eq_true_eq] at hk
  have htake : (entryLine (k, v)).takeWhile (fun c => c ≠ ':') = k := by
    rw [entryLine]
    show ((k ++ [':', ' ']) ++ scalarDump v).takeWhile (fun c => decide (c ≠ ':')) = k
    rw [List.append_assoc]
    exact takeWhile_append_stop _ k _ ':'
      (fun c hc => by simp only [ne_eq, decide_eq_true_eq]; exact (hk.1 c hc).1) (by simp)
  rw [readEntryLine, htake]
  have hdrop : (entryLine (k, v)).drop k.length = ':' :: ' ' :: scalarDump v := by
    rw [entryLine]
    show ((k ++ [':', ' ']) ++ scalarDump v).drop k.length = ':' :: ' ' :: scalarDump v
    rw [List.append_assoc]
    exact List.drop_left k (':' :: ' ' :: scalarDump v)
  rw [hdrop]
  show some (k, scalarRead (scalarDump v)) = some (k, v)
  rw [scalarRead_dump v hv]

theorem readFmLines_entry_lines (md : Meta) (rest : List (List Char))
    (hfits : metaFits md = true) :
    readFmLines (md.map entryLine ++ ['-', '-', '-'] :: rest) = some (md, rest) := by
  induction md with
  | nil => simp [readFmLines]
  | cons e md2 ih =>
    rw [metaFits] at hfits
    simp only [List.all_cons, Bool.and_eq_true] at hfits
    obtain ⟨⟨hk, hv⟩, hrest⟩ := hfits
    have hne : entryLine e ≠ ['-', '-', '-'] := by
      intro hcon
      have hmem : ':' ∈ entryLine e := by
        rw [entryLine]
        simp
      rw [hcon] at hmem
      simp at hmem
    rw [List.map_cons, List.cons_append, readFmLines, if_neg hne,
      readEntryLine_entryLine e hk hv, ih hrest]

theorem dumpMeta_cons (e : List Char × Yv) (md : Meta) :
    dumpMeta (e :: md) = entryLine e ++ '\n' :: dumpMeta md := by
  rw [dumpMeta, List.map_cons, List.flatten_cons]
  show dumpEntry e ++ dumpMeta md = entryLine e ++ '\n' :: dumpMeta md
  rw [dumpEntry, entryLine]
  simp

theorem split_dumpMeta (md : Meta) (c : List Char) (hfits : metaFits md = true) :
    splitOnCh '\n' (dumpMeta md ++ ['-', '-', '-'] ++ '\n' :: c) =
      md.map entryLine ++ ['-', '-', '-'] :: splitOnCh '\n' c := by
  induction md with
  | nil =>
    rw [dumpMeta]
    simp only [List.map_nil, List.flatten_nil, List.nil_append]
    exact splitOnCh_append_no_sep '\n' ['-', '-', '-'] c (by decide)
  | cons e md2 ih =>
    rw [metaFits] at hfits
    simp only [List.all_cons, Bool.and_eq_true] at hfits
    obtain ⟨⟨hk, hv⟩, hrest⟩ := hfits
    rw [dumpMeta_cons]
    have hassoc : entryLine e ++ '\n' :: dumpMeta md2 ++ ['-', '-', '-'] ++ '\n' :: c =
        entryLine e ++ '\n' :: (dumpMeta md2 ++ ['-', '-', '-'] ++ '\n' :: c) := by
      simp
    rw [hassoc, splitOnCh_append_no_sep '\n' (entryLine e) _ (entryLine_no_nl e hk hv),
      ih hrest, List.map_cons, List.cons_append]

/-- Round trip of the modelled codec: parsing a serialized note recovers
the metadata and body exactly. -/
theorem parse_serialize (md : Meta) (c : List Char) (hfits : metaFits md = true)
    (hne : md ≠ []) : parse_frontmatter (serialize_frontmatter md c) = some (md, c) := by
  have hser : serialize_frontmatter md c = fmDelim ++ (dumpMeta md ++ fmDelim ++ c) := by
    rw [serialize_frontmatter]
    have : md.isEmpty = false := by
      cases md with
      | nil => exact absurd rfl hne
      | cons e r => rfl
    rw [this]
    simp
  rw [hser, parse_frontmatter]
  have hpre : fmDelim.isPrefixOf (fmDelim ++ (dumpMeta md ++ fmDelim ++ c)) = true := by
    rw [List.isPrefixOf_iff_prefix]
    exact List.prefix_append _ _
  rw [if_pos hpre]
  have hdrop : (fmDelim ++ (dumpMeta md ++ fmDelim ++ c)).drop 4 =
      dumpMeta md ++ fmDelim ++ c := by
    show List.drop fmDelim.length (fmDelim ++ (dumpMeta md ++ fmDelim ++ c)) =
      dumpMeta md ++ fmDelim ++ c
    exact List.drop_left _ _
  rw [hdrop]
  have hshape : dumpMeta md ++ fmDelim ++ c = dumpMeta md ++ ['-', '-', '-'] ++ '\n' :: c := by
    rw [fmDelim]
    simp
  rw [hshape, split_dumpMeta md c hfits, readFmLines_entry_lines md _ hfits]
  show some (md, joinWithCh '\n' (splitOnCh '\n' c)) = some (md, c)
  rw [joinWithCh_splitOnCh]

/-! ## Sanitizer and merge interaction -/

theorem sanitizeYv_scalar (v : Yv) (h : scalarFits v = true) : sanitizeYv v = some v := by
  cases v with
  | s a => rfl
  | i a => rfl
  | b a => rfl
  | null => rfl
  | list items => rw [scalarFits] at h; exact absurd h (by simp)
  | map entries => rw [scalarFits] at h; exact absurd h (by simp)

theorem sanitizeEntries_fits (md : Meta) (h : metaFits md = true) :
    sanitizeEntries md = some md := by
  induction md with
  | nil => rfl
  | cons e rest ih =>
    obtain ⟨k, v⟩ := e
    rw [metaFits] at h
    simp only [List.all_cons, Bool.and_eq_true] at h
    obtain ⟨⟨hk, hv⟩, hrest⟩ := h
    have hks : ¬ stripPy k = [] := by
      rw [keyFits] at hk
      simp only [Bool.and_eq_true, decide_eq_true_eq] at hk
      exact hk.2
    rw [sanitizeEntries, if_neg hks, sanitizeYv_scalar v hv, ih hrest]

theorem mergeVal_scalar (o : Option Yv) (v : Yv) (h : scalarFits v = true) :
    mergeVal o v = v := by
  cases v with
  | map entries => rw [scalarFits] at h; exact absurd h (by simp)
  | s a => rcases o with _ | w
           · rfl
           · cases w <;> rfl
  | i a => rcases o with _ | w
           · rfl
           · cases w <;> rfl
  | b a => rcases o with _ | w
           · rfl
           · cases w <;> rfl
  | null => rcases o with _ | w
            · rfl
            · cases w <;> rfl
  | list a => rcases o with _ | w
              · rfl
              · cases w <;> rfl

theorem metaFits_setKey (l : Meta) (k : List Char) (v : Yv)
    (hl : metaFits l = true) (hk : keyFits k = true) (hv : scalarFits v = true) :
    metaFits (setKey k v l) = true := by
  induction l with
  | nil => simp [setKey, metaFits, hk, hv]
  | cons e rest ih =>
    obtain ⟨k2, v2⟩ := e
    rw [metaFits] at hl
    simp only [List.all_cons, Bool.and_eq_true] at hl
    by_cases h2 : k2 = k
    · rw [setKey, if_pos h2, metaFits]
      simp only [List.all_cons, Bool.and_eq_true]
      exact ⟨⟨hk, hv⟩, hl.2⟩
    · rw [setKey, if_neg h2, metaFits]
      simp only [List.all_cons, Bool.and_eq_true]
      exact ⟨hl.1, ih hl.2⟩

theorem metaFits_merge (u : Meta) (b : Meta)
    (hb : metaFits b = true) (hu : metaFits u = true) :
    metaFits (deep_merge_dicts b u) = true := by
  induction u generalizing b with
  | nil => rw [deep_merge_dicts]; exact hb
  | cons e us ih =>
    obtain ⟨k, v⟩ := e
    rw [metaFits] at hu
    simp only [List.all_cons, Bool.and_eq_true] at hu
    obtain ⟨⟨hk, hv⟩, hus⟩ := hu
    rw [deep_merge_dicts]
    refine ih _ ?_ hus
    rw [mergeOne_eq, mergeVal_scalar _ v hv]
    exact metaFits_setKey b k v hb hk hv

theorem setKey_length_ge (l : Meta) (k : List Char) (v : Yv) :
    l.length ≤ (setKey k v l).length := by
  induction l with
  | nil => simp [setKey]
  | cons e rest ih =>
    obtain ⟨k2, v2⟩ := e
    by_cases h2 : k2 = k
    · simp [setKey, h2]
    · simp only [setKey, if_neg h2, List.length_cons]
      omega

theorem merge_length_ge (u : Meta) (b : Meta) :
    b.length ≤ (deep_merge_dicts b u).length := by
  induction u generalizing b with
  | nil => rw [deep_merge_dicts]
  | cons e us ih =>
    obtain ⟨k, v⟩ := e
    rw [deep_merge_dicts]
    calc b.length ≤ (mergeOne b k v).length := by
          rw [mergeOne_eq]; exact setKey_length_ge b k _
      _ ≤ _ := ih _

/-- Second-call behaviour of `update_frontmatter`: after a successful call,
repeating the same payload reports `"unchanged"` and leaves the bytes of
the first call's result untouched. -/
theorem update_frontmatter_second_unchanged (t : List Char) (u : Meta)
    (cur : Meta) (content : List Char)
    (hp : parse_frontmatter t = some (cur, content))
    (hfc : metaFits cur = true) (hfu : metaFits u = true) (hnu : metaNodup u = true)
    (t1 : List Char) (s1 : String)
    (hcall : update_frontmatter t u = some (t1, s1)) :
    update_frontmatter t1 u = some (t1, "unchanged") := by
  have hsanu : sanitizeEntries u = some u := sanitizeEntries_fits u hfu
  by_cases hcap : (dumpMeta u).length > MAX_FRONTMATTER_BYTES
  · simp only [update_frontmatter, ensure_valid_yaml, hsanu, gt_iff_lt] at hcall
    simp only [gt_iff_lt] at hcap
    rw [if_pos hcap] at hcall
    exact absurd hcall (by simp)
  · have hens : ensure_valid_yaml u = some u := by
      rw [ensure_valid_yaml, hsanu]
      simp only [gt_iff_lt] at hcap ⊢
      rw [if_neg hcap]
    by_cases hbeq : metaBeq (deep_merge_dicts cur u) cur = true
    · have hfirst : update_frontmatter t u = some (t, "unchanged") := by
        simp only [update_frontmatter, hens, hp, hbeq, if_true]
      rw [hcall] at hfirst
      have ht1 : t1 = t := by
        injection hfirst.symm with h1
        exact (congrArg Prod.fst h1).symm
      subst ht1
      simp only [update_frontmatter, hens, hp, hbeq, if_true]
    · have hfm : metaFits (deep_merge_dicts cur u) = true := metaFits_merge u cur hfc hfu
      have hsanm : sanitizeEntries (deep_merge_dicts cur u) = some (deep_merge_dicts cur u) :=
        sanitizeEntries_fits _ hfm
      simp only [update_frontmatter, hens, hp, hbeq, Bool.false_eq_true, if_false] at hcall
      by_cases hcapm : (dumpMeta (deep_merge_dicts cur u)).length > MAX_FRONTMATTER_BYTES
      · simp only [ensure_valid_yaml, hsanm, gt_iff_lt] at hcall
        simp only [gt_iff_lt] at hcapm
        rw [if_pos hcapm] at hcall
        exact absurd hcall (by simp)
      · have hensm : ensure_valid_yaml (deep_merge_dicts cur u) =
            some (deep_merge_dicts cur u) := by
          rw [ensure_valid_yaml, hsanm]
          simp only [gt_iff_lt] at hcapm ⊢
          rw [if_neg hcapm]
        rw [hensm] at hcall
        have hcall2 : some (serialize_frontmatter (deep_merge_dicts cur u) content, "updated") =
            some (t1, s1) := hcall
        have ht1 : t1 = serialize_frontmatter (deep_merge_dicts cur u) content := by
          injection hcall2 with h1
          exact (congrArg Prod.fst h1).symm
        have hmne : deep_merge_dicts cur u ≠ [] := by
          intro hcon
          have hlen := merge_length_ge u cur
          rw [hcon] at hlen
          simp only [List.length_nil, Nat.le_zero, List.length_eq_zero] at hlen
          rw [hlen] at hbeq hcon
          rw [deep_merge_nil u (metaNodup_keys u hnu)] at hbeq hcon
          rw [hcon] at hbeq
          exact hbeq (metaBeq_self [])
        have hp1 : parse_frontmatter t1 = some (deep_merge_dicts cur u, content) := by
          rw [ht1]
          exact parse_serialize _ _ hfm hmne
        have hidem : deep_merge_dicts (deep_merge_dicts cur u) u = deep_merge_dicts cur u :=
          deep_merge_idem u hnu cur
        simp only [update_frontmatter, hens, hp1, hidem, metaBeq_self, if_true]

/-! ## Claim C4 -/

/-- C4: for all string-keyed maps `base` and `updates`,
`_deep_merge_dicts base updates` maps every key of `updates` to the
recursive merge when both sides are maps and to the update value wholesale
otherwise (lists are replaced, never concatenated), and every key absent
from `updates` keeps the base value.  (`base` is never mutated: the model
is purely functional, mirroring the source's deep copy.) -/
theorem c4_deep_merge_characterization (base updates : Meta)
    (hnd : (updates.map Prod.fst).Nodup) (k : List Char) :
    lookupKey k (deep_merge_dicts base updates) =
      match lookupKey k updates with
      | none => lookupKey k base
      | some v => some (mergeVal (lookupKey k base) v) :=
  deep_merge_lookup updates hnd base k

/-- Witness for C4, on the spec's own example: merging
`project: (status: active)` into `project: (status: planned, owner: alice)`
keeps `owner` and overwrites `status`. -/
theorem c4_witness :
    (["project".toList].Nodup ∧
      lookupKey ("project".toList)
        (deep_merge_dicts
          [("project".toList, Yv.map [("status".toList, Yv.s ("planned".toList)),
            ("owner".toList, Yv.s ("alice".toList))])]
          [("project".toList, Yv.map [("status".toList, Yv.s ("active".toList))])]) =
        some (Yv.map [("status".toList, Yv.s ("active".toList)),
          ("owner".toList, Yv.s ("alice".toList))])) ∧
    deep_merge_dicts
        [("project".toList, Yv.map [("status".toList, Yv.s ("planned".toList)),
          ("owner".toList, Yv.s ("alice".toList))])]
        [("project".toList, Yv.map [("status".toList, Yv.s ("active".toList))])] =
      [("project".toList, Yv.map [("status".toList, Yv.s ("active".toList)),
        ("owner".toList, Yv.s ("alice".toList))])] := by
  refine ⟨⟨by decide, ?_⟩, by rfl⟩
  have h := c4_deep_merge_characterization
    [("project".toList, Yv.map [("status".toList, Yv.s ("planned".toList)),
      ("owner".toList, Yv.s ("alice".toList))])]
    [("project".toList, Yv.map [("status".toList, Yv.s ("active".toList))])]
    (by decide) ("project".toList)
  rw [h]
  rfl

/-! ## Claim C5 -/

/-- C5: for every note text and every update payload the modelled codec
stores faithfully, a successful `update_frontmatter` call followed by a
second call with the same payload makes the second call report
`"unchanged"`, perform no write, and leave the note's bytes exactly as
after the first call (the returned text is the first call's text). -/
theorem c5_update_frontmatter_idempotent (t : List Char) (u : Meta)
    (cur : Meta) (content : List Char)
    (hp : parse_frontmatter t = some (cur, content))
    (hfc : metaFits cur = true) (hfu : metaFits u = true) (hnu : metaNodup u = true)
    (t1 : List Char) (s1 : String)
    (hcall : update_frontmatter t u = some (t1, s1)) :
    update_frontmatter t1 u = some (t1, "unchanged") :=
  update_frontmatter_second_unchanged t u cur content hp hfc hfu hnu t1 s1 hcall

/-- Witness for C5 at a concrete note and payload (first call updates,
second call is unchanged and byte-identical). -/
theorem c5_witness :
    update_frontmatter ("---\nstatus: active\n---\nBody\n".toList)
      [("status".toList, Yv.s ("active".toList))] =
      some ("---\nstatus: active\n---\nBody\n".toList, "unchanged") :=
  c5_update_frontmatter_idempotent ("---\nstatus: planned\n---\nBody\n".toList)
    [("status".toList, Yv.s ("active".toList))]
    [("status".toList, Yv.s ("planned".toList))] ("Body\n".toList)
    (by rfl) (by decide) (by decide) (by decide)
    ("---\nstatus: active\n---\nBody\n".toList) "updated" (by rfl)

/-! ## Claim C6 -/

/-- C6: for every text with a well-formed frontmatter block of the modelled
codec (the serialization of nonempty codec-faithful metadata followed by an
arbitrary body), parsing and re-serializing reproduces the text
byte-for-byte: `serialize (parse text) = text`. -/
theorem c6_serialize_parse_roundtrip (md : Meta) (content : List Char)
    (hfits : metaFits md = true) (hne : md ≠ []) :
    parse_frontmatter (serialize_frontmatter md content) = some (md, content) ∧
    (match parse_frontmatter (serialize_frontmatter md content) with
      | some (m, c) => serialize_frontmatter m c
      | none => []) = serialize_frontmatter md content := by
  have h := parse_serialize md content hfits hne
  refine ⟨h, ?_⟩
  rw [h]

/-- Witness for C6 at a concrete two-field block. -/
theorem c6_witness :
    parse_frontmatter (serialize_frontmatter
        [("title".toList, Yv.s ("Example Note".toList)), ("count".toList, Yv.i 3)]
        ("\nBody text.\n".toList)) =
      some ([("title".toList, Yv.s ("Example Note".toList)), ("count".toList, Yv.i 3)],
        "\nBody text.\n".toList) :=
  (c6_serialize_parse_roundtrip
    [("title".toList, Yv.s ("Example Note".toList)), ("count".toList, Yv.i 3)]
    ("\nBody text.\n".toList) (by decide) (List.cons_ne_nil _ _)).1

/-! ## String lemmas for identifier normalization -/

theorem lstripPy_append (xs ys : List Char)
    (hy : ∀ c, ys.head? = some c → pyWs c = false) :
    lstripPy (xs ++ ys) = lstripPy xs ++ ys := by
  induction xs with
  | nil =>
    cases ys with
    | nil => rfl
    | cons c r => simp [lstripPy, List.dropWhile, hy c rfl]
  | cons c xs2 ih =>
    by_cases hc : pyWs c = true
    · simp only [List.cons_append, lstripPy, List.dropWhile, hc]
      exact ih
    · have hc2 : pyWs c = false := by simp at hc; exact hc
      simp only [List.cons_append, lstripPy, List.dropWhile, hc2]
      simp

theorem rstripPy_append_last (xs : List Char) (c : Char) (hc : pyWs c = false) :
    rstripPy (xs ++ [c]) = xs ++ [c] := by
  rw [rstripPy]
  rw [List.reverse_append]
  simp only [List.reverse_cons, List.reverse_nil, List.nil_append, List.singleton_append,
    List.dropWhile, hc]
  simp

theorem stripPy_length_le (l : List Char) : (stripPy l).length ≤ l.length := by
  have h1 : ∀ (p : Char → Bool) (m : List Char), (m.dropWhile p).length ≤ m.length := by
    intro p m
    induction m with
    | nil => simp
    | cons c r ih =>
      by_cases hc : p c = true
      · simp only [List.dropWhile, hc, List.length_cons]
        omega
      · have hc2 : p c = false := by simp at hc; exact hc
        simp only [List.dropWhile, hc2, List.length_cons]
        simp
  calc (stripPy l).length = ((lstripPy l).reverse.dropWhile pyWs).length := by
        rw [stripPy, rstripPy]; simp
    _ ≤ (lstripPy l).reverse.length := h1 pyWs _
    _ = (lstripPy l).length := by simp
    _ ≤ l.length := by rw [lstripPy]; exact h1 pyWs l

/-- Splitting a list with no separator occurrences yields one segment. -/
theorem splitOnCh_no_sep (sep : Char) (ys : List Char) (h : ∀ y ∈ ys, y ≠ sep) :
    splitOnCh sep ys = [ys] := by
  induction ys with
  | nil => rfl
  | cons c r ih =>
    have hc : c ≠ sep := h c (by simp)
    rw [splitOnCh, if_neg hc, ih (fun y hy => h y (by simp [hy]))]

/-- Appending separator-free characters extends only the last segment. -/
theorem splitOnCh_append_suffix (sep : Char) (xs ys : List Char)
    (h : ∀ y ∈ ys, y ≠ sep) :
    splitOnCh sep (xs ++ ys) =
      (splitOnCh sep xs).dropLast ++ [(splitOnCh sep xs).getLastD [] ++ ys] := by
  induction xs with
  | nil => simp [splitOnCh, splitOnCh_no_sep sep ys h]
  | cons x xs2 ih =>
    by_cases hx : x = sep
    · rw [List.cons_append, splitOnCh, if_pos hx, splitOnCh, if_pos hx, ih]
      rcases hsp : splitOnCh sep xs2 with _ | ⟨seg, segs⟩
      · exact absurd hsp (splitOnCh_ne_nil sep xs2)
      · simp
    · rw [List.cons_append, splitOnCh, if_neg hx, splitOnCh, if_neg hx, ih]
      rcases hsp : splitOnCh sep xs2 with _ | ⟨seg, segs⟩
      · exact absurd hsp (splitOnCh_ne_nil sep xs2)
      · cases segs with
        | nil => simp
        | cons s2 rest => simp

theorem head?_append_left (xs ys : List Char) (hne : xs ≠ []) :
    (xs ++ ys).head? = xs.head? := by
  cases xs with
  | nil => exact absurd rfl hne
  | cons c r => rfl

/-! ## Lemmas on identifier validation -/

theorem escapesRootGo_no_dotdot (segs : List (List Char))
    (h : ∀ s ∈ segs, s ≠ ['.', '.']) : ∀ d, escapesRootGo d segs = false := by
  induction segs with
  | nil => intro d; rfl
  | cons s rest ih =>
    intro d
    have hs : s ≠ ['.', '.'] := h s (by simp)
    rw [escapesRootGo, if_neg hs]
    by_cases h2 : s = ['.'] ∨ s = []
    · rw [if_pos h2]
      exact ih (fun x hx => h x (by simp [hx])) d
    · rw [if_neg h2]
      exact ih (fun x hx => h x (by simp [hx])) (d + 1)

/-- Membership shape of `construct_note_path`: a produced segment is either
an interior segment of the split identifier (nonempty, not `"."`) or the
`.md`-suffixed leaf. -/
theorem construct_note_path_mem (idf s : List Char) (hs : s ∈ construct_note_path idf) :
    (s ∈ (splitOnCh '/' idf).dropLast ∧ s ≠ [] ∧ s ≠ ['.']) ∨
      s = (splitOnCh '/' idf).getLastD [] ++ mdSuffix := by
  rw [construct_note_path] at hs
  by_cases hlen : (splitOnCh '/' idf).length = 1
  · rw [if_pos hlen] at hs
    rw [pyPathSegs] at hs
    have := List.mem_filter.mp hs
    simp only [List.mem_singleton] at this
    exact Or.inr this.1
  · rw [if_neg hlen, List.mem_append] at hs
    rcases hs with hs | hs
    · rw [pyPathSegs] at hs
      have := List.mem_filter.mp hs
      exact Or.inl ⟨this.1, of_decide_eq_true this.2⟩
    · rw [pyPathSegs] at hs
      have := List.mem_filter.mp hs
      simp only [List.mem_singleton] at this
      exact Or.inr this.1

/-- The `.md`-suffixed leaf is never a traversal segment. -/
theorem leafExt_not_dot (leaf : List Char) :
    leaf ++ mdSuffix ≠ ['.'] ∧ leaf ++ mdSuffix ≠ ['.', '.'] := by
  constructor
  · intro hcon
    have := congrArg List.length hcon
    simp [mdSuffix] at this
  · intro hcon
    have := congrArg List.length hcon
    simp [mdSuffix] at this

/-- Stripping the trailing `.md` cannot erase a `.`/`..` segment: the
traversal segment survives in the truncated identifier. -/
theorem dot_after_md_strip (cleaned : List Char)
    (hsuf : mdSuffix.isSuffixOf cleaned = true)
    (hdot : (splitOnCh '/' cleaned).any (fun p => p = ['.'] ∨ p = ['.', '.']) = true) :
    (splitOnCh '/' (cleaned.take (cleaned.length - 3))).any
      (fun p => p = ['.'] ∨ p = ['.', '.']) = true := by
  obtain ⟨t, ht⟩ := List.isSuffixOf_iff_suffix.mp hsuf
  have htake : cleaned.take (cleaned.length - 3) = t := by
    rw [← ht]
    have hlen : (t ++ mdSuffix).length - 3 = t.length := by
      rw [List.length_append]
      simp [mdSuffix]
    rw [hlen, List.take_left]
  rw [htake]
  rw [← ht, splitOnCh_append_suffix '/' t mdSuffix (by decide)] at hdot
  rw [List.any_eq_true] at hdot
  obtain ⟨p, hp, hpred⟩ := hdot
  rw [List.mem_append] at hp
  rcases hp with hp | hp
  · rw [List.any_eq_true]
    exact ⟨p, (List.dropLast_sublist _).mem hp, hpred⟩
  · simp only [List.mem_singleton] at hp
    subst hp
    have hno := leafExt_not_dot ((splitOnCh '/' t).getLastD [])
    rw [decide_eq_true_eq] at hpred
    rcases hpred with h1 | h1
    · exact absurd h1 hno.1
    · exact absurd h1 hno.2

/-! ## Claim C1 -/

/-- C1 (amended): for every identifier whose trimmed form contains a `.`
or `..` segment or begins with `/`, the Pydantic title validator rejects
it; the legacy `normalize_note_identifier` rejects all `.`/`..`-segment
identifiers, and whenever it accepts an identifier (in particular one with
a leading `/`, which it silently confines instead of rejecting), the
returned relative path contains no `.`/`..`/empty segments and cannot
escape the vault root lexically. -/
theorem c1_path_validation (id : List Char)
    (hcov : (splitOnCh '/' (stripPy id)).any (fun p => p = ['.'] ∨ p = ['.', '.']) = true ∨
      (stripPy id).head? = some '/') :
    (∃ e, validate_title id = Except.error e) ∧
    ((splitOnCh '/' (stripPy id)).any (fun p => p = ['.'] ∨ p = ['.', '.']) = true →
      ∃ e, normalize_note_identifier id = Except.error e) ∧
    (∀ segs, normalize_note_identifier id = Except.ok segs →
      (∀ s ∈ segs, s ≠ [] ∧ s ≠ ['.'] ∧ s ≠ ['.', '.']) ∧ escapesRoot segs = false) := by
  have hne : stripPy id ≠ [] := by
    intro h0
    rw [h0] at hcov
    rcases hcov with h | h
    · simp [splitOnCh] at h
    · simp at h
  refine ⟨?_, ?_, ?_⟩
  · -- the Pydantic validator rejects
    rw [validate_title]
    rw [if_neg hne]
    by_cases hdot : (splitOnCh '/' (stripPy id)).any
        (fun p => p = ['.'] ∨ p = ['.', '.']) = true
    · rw [if_pos hdot]
      exact ⟨_, rfl⟩
    · rw [if_neg hdot]
      have hsl : (stripPy id).head? = some '/' := hcov.resolve_left hdot
      rw [if_pos hsl]
      exact ⟨_, rfl⟩
  · -- the legacy normalizer rejects traversal segments
    intro hdot
    rw [normalize_note_identifier, if_neg hne]
    by_cases hsuf : mdSuffix.isSuffixOf (stripPy id) = true
    · rw [if_pos hsuf, if_pos (dot_after_md_strip (stripPy id) hsuf hdot)]
      exact ⟨_, rfl⟩
    · rw [if_neg hsuf, if_pos hdot]
      exact ⟨_, rfl⟩
  · -- accepted identifiers stay inside the vault
    intro segs hok
    rw [normalize_note_identifier, if_neg hne] at hok
    by_cases hsuf : mdSuffix.isSuffixOf (stripPy id) = true
    · rw [if_pos hsuf] at hok
      by_cases hdot : (splitOnCh '/' ((stripPy id).take ((stripPy id).length - 3))).any
          (fun p => p = ['.'] ∨ p = ['.', '.']) = true
      · rw [if_pos hdot] at hok
        exact absurd hok (by simp)
      · rw [if_neg hdot] at hok
        rw [if_neg (fun hcon => Bool.noConfusion hcon)] at hok
        have hsegs : segs =
            construct_note_path ((stripPy id).take ((stripPy id).length - 3)) := by
          injection hok with h1
          exact h1.symm
        subst hsegs
        have hmem : ∀ s ∈ construct_note_path ((stripPy id).take ((stripPy id).length - 3)),
            s ≠ [] ∧ s ≠ ['.'] ∧ s ≠ ['.', '.'] := by
          intro s hs
          rcases construct_note_path_mem _ s hs with ⟨hin, h1, h2⟩ | hleaf
          · refine ⟨h1, h2, ?_⟩
            intro hcon
            subst hcon
            rw [List.any_eq_true] at hdot
            exact hdot ⟨_, (List.dropLast_sublist _).mem hin, by decide⟩
          · have hno := leafExt_not_dot ((splitOnCh '/'
              ((stripPy id).take ((stripPy id).length - 3))).getLastD [])
            subst hleaf
            refine ⟨by simp [mdSuffix], hno.1, hno.2⟩
        refine ⟨hmem, escapesRootGo_no_dotdot _ (fun s hs => (hmem s hs).2.2) 0⟩
    · rw [if_neg hsuf] at hok
      by_cases hdot : (splitOnCh '/' (stripPy id)).any
          (fun p => p = ['.'] ∨ p = ['.', '.']) = true
      · rw [if_pos hdot] at hok
        exact absurd hok (by simp)
      · rw [if_neg hdot] at hok
        rw [if_neg (fun hcon => Bool.noConfusion hcon)] at hok
        have hsegs : segs = construct_note_path (stripPy id) := by
          injection hok with h1
          exact h1.symm
        subst hsegs
        have hmem : ∀ s ∈ construct_note_path (stripPy id),
            s ≠ [] ∧ s ≠ ['.'] ∧ s ≠ ['.', '.'] := by
          intro s hs
          rcases construct_note_path_mem _ s hs with ⟨hin, h1, h2⟩ | hleaf
          · refine ⟨h1, h2, ?_⟩
            intro hcon
            subst hcon
            rw [List.any_eq_true] at hdot
            exact hdot ⟨_, (List.dropLast_sublist _).mem hin, by decide⟩
          · have hno := leafExt_not_dot ((splitOnCh '/' (stripPy id)).getLastD [])
            subst hleaf
            refine ⟨by simp [mdSuffix], hno.1, hno.2⟩
        refine ⟨hmem, escapesRootGo_no_dotdot _ (fun s hs => (hmem s hs).2.2) 0⟩

/-- Counterexample for C1 as stated: the legacy `normalize_note_identifier`
does not fail on the absolute identifier `/etc/passwd` — it silently maps
it to the vault-relative path `etc/passwd.md`, so "resolution always fails
with a validation error" is false for the legacy path. -/
theorem c1_counterexample :
    ("/etc/passwd".toList).head? = some '/' ∧
    normalize_note_identifier ("/etc/passwd".toList) =
      Except.ok ["etc".toList, "passwd.md".toList] := by
  constructor
  · rfl
  · rfl

/-- Witness for C1 at the traversal identifier `../escape` and the
absolute identifier `/etc/passwd`. -/
theorem c1_witness :
    (∃ e, validate_title ("../escape".toList) = Except.error e) ∧
    (∃ e, normalize_note_identifier ("../escape".toList) = Except.error e) ∧
    (∃ e, validate_title ("/etc/passwd".toList) = Except.error e) ∧
    ((∀ s ∈ ["etc".toList, "passwd.md".toList], s ≠ [] ∧ s ≠ ['.'] ∧ s ≠ ['.', '.']) ∧
      escapesRoot ["etc".toList, "passwd.md".toList] = false) := by
  have h1 := c1_path_validation ("../escape".toList) (Or.inl (by decide))
  have h2 := c1_path_validation ("/etc/passwd".toList) (Or.inr (by decide))
  exact ⟨h1.1, h1.2.1 (by decide), h2.1,
    h2.2.2 ["etc".toList, "passwd.md".toList] (by rfl)⟩

/-! ## Claim C9 -/

theorem dropWhile_length_le_gen (p : Char → Bool) (l : List Char) :
    (l.dropWhile p).length ≤ l.length := by
  induction l with
  | nil => simp
  | cons c r ih =>
    by_cases hc : p c = true
    · simp only [List.dropWhile, hc, List.length_cons]
      omega
    · have hc2 : p c = false := by simp at hc; exact hc
      simp only [List.dropWhile, hc2, List.length_cons]
      simp

theorem dropWhile_eq_self_of_length (p : Char → Bool) (l : List Char)
    (h : (l.dropWhile p).length = l.length) : l.dropWhile p = l := by
  cases l with
  | nil => rfl
  | cons c r =>
    by_cases hc : p c = true
    · exfalso
      have h1 := dropWhile_length_le_gen p r
      simp only [List.dropWhile, hc, List.length_cons] at h
      omega
    · have hc2 : p c = false := by simp at hc; exact hc
      simp only [List.dropWhile, hc2]

theorem rstripPy_length_le (l : List Char) : (rstripPy l).length ≤ l.length := by
  rw [rstripPy]
  calc ((l.reverse.dropWhile pyWs).reverse).length = (l.reverse.dropWhile pyWs).length := by simp
    _ ≤ l.reverse.length := dropWhile_length_le_gen pyWs l.reverse
    _ = l.length := by simp

theorem lstripPy_of_stripPy_eq (l : List Char) (h : stripPy l = l) :
    lstripPy l = l ∧ rstripPy l = l := by
  have h1 : (lstripPy l).length ≤ l.length := dropWhile_length_le_gen pyWs l
  have h2 : (stripPy l).length ≤ (lstripPy l).length := by
    rw [stripPy]
    exact rstripPy_length_le (lstripPy l)
  have h3 : (stripPy l).length = l.length := by rw [h]
  have h4 : (lstripPy l).length = l.length := by omega
  have h5 : lstripPy l = l := dropWhile_eq_self_of_length pyWs l h4
  refine ⟨h5, ?_⟩
  rw [stripPy, h5] at h
  exact h

/-- The tail of the monolithic normalizer after the identifier has been
trimmed and its `.md` suffix removed (proof helper: both spellings of the
suffix reduce the normalizer to this common continuation). -/
def legacyAfterStrip (cleaned : List Char) : Except String (List (List Char)) :=
  let parts := ((splitOnCh '/' cleaned).map stripPy).filter (fun seg => seg ≠ [])
  if parts = [] then .error "no segment"
  else if parts.any (fun part => part = ['.'] ∨ part = ['.', '.']) then .error "traversal"
  else
    let leaf := parts.getLastD []
    let leafExt := leaf ++ mdSuffix
    let relative := if parts.length = 1 then [leafExt] else parts.dropLast ++ [leafExt]
    if pathIsAbsolute relative then .error "absolute" else .ok relative

theorem legacy_md_variant (id X : List Char) (h3 : X.length = 3)
    (hlow : lowerCl X = mdSuffix)
    (hhead : ∀ c, X.head? = some c → pyWs c = false)
    (hstripX : rstripPy (lstripPy id ++ X) = lstripPy id ++ X) :
    legacy_normalize_note_identifier (id ++ X) = legacyAfterStrip (lstripPy id) := by
  have hstrip : stripPy (id ++ X) = lstripPy id ++ X := by
    rw [stripPy, lstripPy_append id X hhead, hstripX]
  rw [legacy_normalize_note_identifier, hstrip]
  have hne2 : lstripPy id ++ X ≠ [] := by
    intro hcon
    have := congrArg List.length hcon
    rw [List.length_append, h3] at this
    simp at this
  rw [if_neg hne2]
  have hsuf : mdSuffix.isSuffixOf (lowerCl (lstripPy id ++ X)) = true := by
    rw [lowerCl, List.map_append]
    have hX : List.map Char.toLower X = mdSuffix := hlow
    rw [hX, List.isSuffixOf_iff_suffix]
    exact ⟨_, rfl⟩
  rw [if_pos hsuf]
  have htake : (lstripPy id ++ X).take ((lstripPy id ++ X).length - 3) = lstripPy id := by
    rw [List.length_append, h3]
    have heq : (lstripPy id).length + 3 - 3 = (lstripPy id).length := by omega
    rw [heq, List.take_left]
  rw [htake]
  rfl

theorem validate_title_append_md (id : List Char) (hok : validate_title id = Except.ok id) :
    validate_title (id ++ mdSuffix) = Except.ok id := by
  simp only [validate_title] at hok
  by_cases h0 : stripPy id = []
  · rw [if_pos h0] at hok
    exact absurd hok (by simp)
  rw [if_neg h0] at hok
  by_cases hdot : (splitOnCh '/' (stripPy id)).any
      (fun p => p = ['.'] ∨ p = ['.', '.']) = true
  · rw [if_pos hdot] at hok
    exact absurd hok (by simp)
  rw [if_neg hdot] at hok
  by_cases habs : (stripPy id).head? = some '/'
  · rw [if_pos habs] at hok
    exact absurd hok (by simp)
  rw [if_neg habs] at hok
  have hsid : stripPy id = id := by
    by_cases hsuf : mdSuffix.isSuffixOf (stripPy id) = true
    · exfalso
      rw [if_pos hsuf] at hok
      obtain ⟨t, ht⟩ := List.isSuffixOf_iff_suffix.mp hsuf
      have htake : (stripPy id).take ((stripPy id).length - 3) = t := by
        rw [← ht, List.length_append]
        have heq : t.length + mdSuffix.length - 3 = t.length := by simp [mdSuffix]
        rw [heq, List.take_left]
      rw [htake] at hok
      by_cases hz : t = []
      · rw [if_pos hz] at hok
        exact absurd hok (by simp)
      · rw [if_neg hz] at hok
        have hid : t = id := by
          injection hok with h1
        have hlen1 : (stripPy id).length ≤ id.length := stripPy_length_le id
        have hlen2 : (stripPy id).length = t.length + 3 := by
          rw [← ht, List.length_append]
          simp [mdSuffix]
        rw [hid] at hlen2
        omega
    · rw [if_neg hsuf, if_neg h0] at hok
      injection hok with h1
  have hl : lstripPy id = id := (lstripPy_of_stripPy_eq id hsid).1
  have hidne : id ≠ [] := by
    intro hcon
    apply h0
    rw [hcon] at hsid ⊢
    exact hsid
  have hstrip : stripPy (id ++ mdSuffix) = id ++ mdSuffix := by
    rw [stripPy, lstripPy_append id mdSuffix (by intro c hc; injection hc with h1; rw [← h1]; rfl),
      hl]
    have hshape : id ++ mdSuffix = (id ++ ['.', 'm']) ++ ['d'] := by simp [mdSuffix]
    rw [hshape, rstripPy_append_last _ 'd' (by decide)]
  simp only [validate_title, hstrip]
  have hne : id ++ mdSuffix ≠ [] := by
    intro hcon
    have := congrArg List.length hcon
    rw [List.length_append] at this
    simp [mdSuffix] at this
  rw [if_neg hne]
  rw [hsid] at hdot
  have hsp : splitOnCh '/' (id ++ mdSuffix) =
      (splitOnCh '/' id).dropLast ++ [(splitOnCh '/' id).getLastD [] ++ mdSuffix] :=
    splitOnCh_append_suffix '/' id mdSuffix (by decide)
  have hdot2 : ¬ ((splitOnCh '/' (id ++ mdSuffix)).any
      (fun p => p = ['.'] ∨ p = ['.', '.']) = true) := by
    rw [hsp, List.any_eq_true]
    intro hcon
    obtain ⟨p, hp, hpred⟩ := hcon
    rw [List.mem_append] at hp
    rcases hp with hp | hp
    · rw [List.any_eq_true] at hdot
      exact hdot ⟨p, (List.dropLast_sublist _).mem hp, hpred⟩
    · simp only [List.mem_singleton] at hp
      subst hp
      have hno := leafExt_not_dot ((splitOnCh '/' id).getLastD [])
      rw [decide_eq_true_eq] at hpred
      rcases hpred with h1 | h1
      · exact hno.1 h1
      · exact hno.2 h1
  rw [if_neg hdot2]
  rw [head?_append_left id mdSuffix hidne]
  rw [hsid] at habs
  rw [if_neg habs]
  have hsu2 : mdSuffix.isSuffixOf (id ++ mdSuffix) = true := by
    rw [List.isSuffixOf_iff_suffix]
    exact ⟨id, rfl⟩
  rw [if_pos hsu2]
  have htake2 : (id ++ mdSuffix).take ((id ++ mdSuffix).length - 3) = id := by
    rw [List.length_append]
    have heq : id.length + mdSuffix.length - 3 = id.length := by simp [mdSuffix]
    rw [heq, List.take_left]
  rw [htake2, if_neg hidne]

/-- C9 (amended): only the monolithic legacy normalizer strips the `.md`
suffix case-insensitively — for every identifier, appending `.MD`, `.Md`
or `.mD` resolves exactly as appending `.md` there; the active pipeline
(`validate_title` + `construct_note_path`) strips only a lowercase `.md`
suffix, so for identifiers it accepts verbatim, appending `.md` (and only
that spelling) is resolution-neutral. -/
theorem c9_md_suffix_handling :
    (∀ id : List Char,
      legacy_normalize_note_identifier (id ++ ['.', 'M', 'D']) =
        legacy_normalize_note_identifier (id ++ mdSuffix) ∧
      legacy_normalize_note_identifier (id ++ ['.', 'M', 'd']) =
        legacy_normalize_note_identifier (id ++ mdSuffix) ∧
      legacy_normalize_note_identifier (id ++ ['.', 'm', 'D']) =
        legacy_normalize_note_identifier (id ++ mdSuffix)) ∧
    (∀ id : List Char, validate_title id = Except.ok id →
      validate_title (id ++ mdSuffix) = Except.ok id) := by
  constructor
  · intro id
    have hmd : legacy_normalize_note_identifier (id ++ mdSuffix) =
        legacyAfterStrip (lstripPy id) := by
      refine legacy_md_variant id mdSuffix (by decide) (by decide) ?_ ?_
      · intro c hc
        injection hc with h1
        rw [← h1]
        rfl
      · have hshape : lstripPy id ++ mdSuffix = (lstripPy id ++ ['.', 'm']) ++ ['d'] := by
          simp [mdSuffix]
        rw [hshape, rstripPy_append_last _ 'd' (by decide)]
    refine ⟨?_, ?_, ?_⟩
    all_goals rw [hmd]
    · refine legacy_md_variant id ['.', 'M', 'D'] (by decide) (by decide) ?_ ?_
      · intro c hc
        injection hc with h1
        rw [← h1]
        rfl
      · have hshape : lstripPy id ++ ['.', 'M', 'D'] = (lstripPy id ++ ['.', 'M']) ++ ['D'] := by
          simp
        rw [hshape, rstripPy_append_last _ 'D' (by decide)]
    · refine legacy_md_variant id ['.', 'M', 'd'] (by decide) (by decide) ?_ ?_
      · intro c hc
        injection hc with h1
        rw [← h1]
        rfl
      · have hshape : lstripPy id ++ ['.', 'M', 'd'] = (lstripPy id ++ ['.', 'M']) ++ ['d'] := by
          simp
        rw [hshape, rstripPy_append_last _ 'd' (by decide)]
    · refine legacy_md_variant id ['.', 'm', 'D'] (by decide) (by decide) ?_ ?_
      · intro c hc
        injection hc with h1
        rw [← h1]
        rfl
      · have hshape : lstripPy id ++ ['.', 'm', 'D'] = (lstripPy id ++ ['.', 'm']) ++ ['D'] := by
          simp
        rw [hshape, rstripPy_append_last _ 'D' (by decide)]
  · exact validate_title_append_md

/-- Counterexample for C9 as stated: the active pipeline does not strip an
uppercase `.MD` — `Note.MD` passes validation verbatim and resolves to the
file `Note.MD.md`, a different file from `Note.md`, while the legacy
monolithic normalizer (whose behaviour the repository's own test suite
pins) resolves it to `Note.md`. -/
theorem c9_counterexample :
    validate_title ("Note.MD".toList) = Except.ok ("Note.MD".toList) ∧
    construct_note_path ("Note.MD".toList) = ["Note.MD.md".toList] ∧
    legacy_normalize_note_identifier ("Note.MD".toList) = Except.ok ["Note.md".toList] ∧
    "Note.MD.md".toList ≠ "Note.md".toList := by
  refine ⟨rfl, rfl, rfl, by decide⟩

/-- Witness for C9 on the repository's own test fixture
`Docs/Version Overview.MD` and a plain lowercase round trip. -/
theorem c9_witness :
    legacy_normalize_note_identifier ("Docs/Version Overview".toList ++ ['.', 'M', 'D']) =
      legacy_normalize_note_identifier ("Docs/Version Overview".toList ++ mdSuffix) ∧
    validate_title ("Note".toList ++ mdSuffix) = Except.ok ("Note".toList) :=
  ⟨(c9_md_suffix_handling.1 ("Docs/Version Overview".toList)).1,
    c9_md_suffix_handling.2 ("Note".toList) (by rfl)⟩

/-! ## Newline-collapse lemmas for delete_section -/

/-- Prepending a non-newline character cannot create a triple newline. -/
theorem hasTripleNl_cons_ne (a : Char) (l : List Char) (ha : a ≠ '\n') :
    hasTripleNl (a :: l) = hasTripleNl l := by
  match l with
  | [] => rfl
  | [b] => rfl
  | b :: c :: t => simp [hasTripleNl, ha]

/-- One newline before a non-newline character creates no triple newline. -/
theorem hasTripleNl_nl_cons_ne (b : Char) (l : List Char) (hb : b ≠ '\n') :
    hasTripleNl ('\n' :: b :: l) = hasTripleNl (b :: l) := by
  match l with
  | [] => rfl
  | c :: t => simp [hasTripleNl, hb]

/-- Two newlines before a non-newline character create no triple newline. -/
theorem hasTripleNl_nl_nl_cons_ne (c : Char) (l : List Char) (hc : c ≠ '\n') :
    hasTripleNl ('\n' :: '\n' :: c :: l) = hasTripleNl (c :: l) := by
  match l with
  | [] => simp [hasTripleNl, hc]
  | d :: t => simp [hasTripleNl, hc]

/-- The run `collapseAux` emits before a non-newline character (at most two
newlines) cannot form a triple newline with what follows. -/
theorem emit_run_no_triple (pending : Nat) (c : Char) (tail : List Char) (hc : c ≠ '\n') :
    hasTripleNl ((if pending ≥ 3 then ['\n', '\n'] else List.replicate pending '\n') ++ c :: tail) =
      hasTripleNl (c :: tail) := by
  by_cases h : pending ≥ 3
  · rw [if_pos h]
    exact hasTripleNl_nl_nl_cons_ne c tail hc
  · rw [if_neg h]
    match pending, h with
    | 0, _ => rfl
    | 1, _ => exact hasTripleNl_nl_cons_ne c tail hc
    | 2, _ => exact hasTripleNl_nl_nl_cons_ne c tail hc
    | n + 3, h => exact absurd (by omega) h

/-- The final run `collapseAux` emits at the end of the text is at most two
newlines. -/
theorem emit_no_triple (pending : Nat) :
    hasTripleNl (if pending ≥ 3 then ['\n', '\n'] else List.replicate pending '\n') = false := by
  by_cases h : pending ≥ 3
  · rw [if_pos h]; rfl
  · rw [if_neg h]
    match pending, h with
    | 0, _ => rfl
    | 1, _ => rfl
    | 2, _ => rfl
    | n + 3, h => exact absurd (by omega) h

/-- The output of `collapseAux` never contains three consecutive newlines. -/
theorem collapse_no_triple (cs : List Char) : ∀ pending : Nat,
    hasTripleNl (collapseAux pending cs) = false := by
  induction cs with
  | nil => intro pending; exact emit_no_triple pending
  | cons c rest ih =>
    intro pending
    by_cases hc : c = '\n'
    · rw [collapseAux, if_pos hc]
      exact ih (pending + 1)
    · rw [collapseAux, if_neg hc, emit_run_no_triple pending c _ hc,
        hasTripleNl_cons_ne c _ hc]
      exact ih 0

/-- The `re.sub(r"\n{3,}", "\n\n", ...)` model leaves no triple newline. -/
theorem collapseNewlines_no_triple (cs : List Char) :
    hasTripleNl (collapseNewlines cs) = false := collapse_no_triple cs 0

/-- A text still containing a triple newline is changed by the collapse. -/
theorem collapseNewlines_ne_of_triple (cs : List Char) (h : hasTripleNl cs = true) :
    collapseNewlines cs ≠ cs := by
  intro he
  have h2 := collapseNewlines_no_triple cs
  rw [he, h] at h2
  exact Bool.noConfusion h2

/-- C7: for every note text and heading located in it, the document produced
by `delete_section` contains no run of three or more consecutive `'\n'`
characters: the final `re.sub(r"\n{3,}", "\n\n", ...)` collapses every such
run (whether created by the splice or pre-existing) to exactly two. -/
theorem c7_delete_no_triple_newlines (text heading : List Char) (r : SectionResult)
    (h : delete_section text heading = some r) :
    hasTripleNl r.text = false := by
  unfold delete_section at h
  rcases hloc : locate_heading text heading with _ | ⟨info, i, hs⟩
  · rw [hloc] at h
    exact Option.noConfusion h
  · rw [hloc] at h
    have h2 := Option.some.inj h
    rw [← h2]
    exact collapse_no_triple _ 0

/-- Witness for C7: deleting section `A` of a concrete note (whose section
contains a four-newline run) yields a text with no triple newline. -/
theorem c7_witness :
    hasTripleNl ("# B\nrest\n".toList) = false := by
  have h : delete_section ("# A\nline\n\n\n\n# B\nrest\n".toList) ("A".toList) =
      some { text := "# B\nrest\n".toList, wrote := true,
             status := "section_deleted", heading := ['A'] } := by rfl
  exact c7_delete_no_triple_newlines _ _ _ h

/-- C8 (amended): for every existing note and located heading, content that
is empty after trimming trailing `"\r\n"` characters (the source's
`content.rstrip("\r\n")` guard) makes `append_to_section` a no-op: the
note's text is unchanged, no write is performed, and the operation still
reports the `section_appended` status with the resolved heading title.
Content that is whitespace-only but survives that trim (for example three
spaces) is not a no-op; see the counterexample. -/
theorem c8_append_empty_content_noop (text heading content : List Char)
    (info : Heading) (i : Nat) (hs : List Heading)
    (hloc : locate_heading text heading = some (info, i, hs))
    (hempty : rstripRN content = []) :
    append_to_section text heading content =
      some { text := text, wrote := false, status := "section_appended",
             heading := info.title } := by
  unfold append_to_section
  rw [hloc]
  simp only [hempty]
  rfl

/-- Counterexample for C8 as stated: content of three spaces is
whitespace-only, yet `append_to_section` writes a changed note. -/
theorem c8_counterexample :
    stripPy ("   ".toList) = [] ∧
    append_to_section ("# A\nbody\n".toList) ("A".toList) ("   ".toList) =
      some { text := "# A\nbody\n\n   \n".toList, wrote := true,
             status := "section_appended", heading := ['A'] } ∧
    ("# A\nbody\n\n   \n".toList : List Char) ≠ "# A\nbody\n".toList := by
  exact ⟨rfl, rfl, by decide⟩

/-- Witness for C8: appending `"\n\n"` (empty after the trailing-newline
trim) to a concrete note leaves it untouched without a write. -/
theorem c8_witness :
    append_to_section ("# A\nbody\n".toList) ("A".toList) ("\n\n".toList) =
      some { text := "# A\nbody\n".toList, wrote := false,
             status := "section_appended", heading := ['A'] } := by
  exact c8_append_empty_content_noop ("# A\nbody\n".toList) ("A".toList) ("\n\n".toList)
    { level := 1, title := ['A'], normalized := ['a'], start := 0, stop := 4 } 0
    [{ level := 1, title := ['A'], normalized := ['a'], start := 0, stop := 4 }]
    (by rfl) (by rfl)

/-- C10: `delete_section` applies its newline collapse to the entire
resulting document, not just the splice region: the result is
`collapseNewlines` of the spliced text, and whenever the splice still
contains a run of three or more consecutive newlines — for example a
pre-existing run located entirely outside the deleted heading's section —
the result differs from the splice, so the text outside the deleted section
is not preserved byte-for-byte. -/
theorem c10_delete_collapse_is_global (text heading : List Char)
    (info : Heading) (i : Nat) (hs : List Heading) (r : SectionResult)
    (hloc : locate_heading text heading = some (info, i, hs))
    (hdel : delete_section text heading = some r) :
    r.text = collapseNewlines
        (text.take info.start ++ text.drop (section_bounds hs i text.length).2) ∧
    hasTripleNl r.text = false ∧
    (hasTripleNl (text.take info.start ++ text.drop (section_bounds hs i text.length).2) = true →
      r.text ≠ text.take info.start ++ text.drop (section_bounds hs i text.length).2) := by
  unfold delete_section at hdel
  rw [hloc] at hdel
  have h2 := Option.some.inj hdel
  rw [← h2]
  exact ⟨rfl, collapse_no_triple _ 0, fun ht => collapseNewlines_ne_of_triple _ ht⟩

/-- Witness for C10: the note `"x\n\n\n\ny\n# A\nbody\n# B\nz\n"` has a
four-newline run before section `A`; deleting `A` rewrites that run to two
newlines, so the result differs from the splice that keeps bytes outside
the deleted section intact. -/
theorem c10_witness :
    ("x\n\ny\n# B\nz\n".toList : List Char) ≠
      ("x\n\n\n\ny\n# A\nbody\n# B\nz\n".toList).take 7 ++
      ("x\n\n\n\ny\n# A\nbody\n# B\nz\n".toList).drop 16 := by
  have h := c10_delete_collapse_is_global ("x\n\n\n\ny\n# A\nbody\n# B\nz\n".toList) ("A".toList)
    { level := 1, title := ['A'], normalized := ['a'], start := 7, stop := 11 } 0
    [{ level := 1, title := ['A'], normalized := ['a'], start := 7, stop := 11 },
     { level := 1, title := ['B'], normalized := ['b'], start := 16, stop := 20 }]
    { text := "x\n\ny\n# B\nz\n".toList, wrote := true, status := "section_deleted",
      heading := ['A'] } (by rfl) (by rfl)
  exact h.2.2 (by decide)

/-! ## Heading-parser soundness (for C2 and C3) -/

theorem countLeading_le_length (p : Char → Bool) (l : List Char) :
    countLeading p l ≤ l.length := by
  induction l with
  | nil => exact Nat.le_refl 0
  | cons c t ih =>
    rw [countLeading]
    by_cases h : p c = true
    · rw [if_pos h]; exact Nat.succ_le_succ ih
    · rw [if_neg h]; exact Nat.zero_le _

theorem countLeading_head (p : Char → Bool) (l : List Char) (h : 1 ≤ countLeading p l) :
    ∃ c t, l = c :: t ∧ p c = true := by
  match l with
  | [] => rw [countLeading] at h; exact absurd h (by omega)
  | c :: t =>
    refine ⟨c, t, rfl, ?_⟩
    by_cases hc : p c = true
    · exact hc
    · rw [countLeading, if_neg hc] at h
      exact absurd h (by omega)

theorem lastNlIdx_spec (l : List Char) : ∀ k : Nat, lastNlIdx l = some k →
    k < l.length ∧ l.get? k = some '\n' := by
  induction l with
  | nil => intro k h; exact Option.noConfusion h
  | cons c t ih =>
    intro k h
    rw [lastNlIdx] at h
    rcases ht : lastNlIdx t with _ | k2
    · rw [ht] at h
      by_cases hc : c = '\n'
      · rw [if_pos hc] at h
        have hk : k = 0 := by injection h with h2; omega
        subst hk
        refine ⟨Nat.succ_le_succ (Nat.zero_le _), ?_⟩
        rw [hc]
        rfl
      · rw [if_neg hc] at h
        exact Option.noConfusion h
    · rw [ht] at h
      have hk : k = k2 + 1 := by injection h with h2; omega
      subst hk
      obtain ⟨h1, h2⟩ := ih k2 ht
      exact ⟨Nat.succ_lt_succ h1, h2⟩

theorem matchAt_sound (cs : List Char) (p lvl stop : Nat) (ttl : List Char)
    (h : matchAt cs p = some (lvl, ttl, stop)) :
    cs.get? p = some '#' ∧ p + 2 ≤ stop ∧ stop ≤ cs.length ∧
    (stop = cs.length ∨ cs.get? (stop - 1) = some '\n') := by
  simp only [matchAt] at h
  set r := countLeading (fun c => decide (c = '#')) (cs.drop p) with hr
  set w := countLeading pyWs (cs.drop (p + r)) with hw
  set tg := rstripPy ((cs.drop (p + r + w)).take (countUntilNl (cs.drop (p + r + w)))) with htg
  set w2 := countLeading pyWs (cs.drop (p + r + w + tg.length)) with hw2
  split at h
  · rename_i hr16
    have hhash : cs.get? p = some '#' := by
      obtain ⟨c, t, hct, hc⟩ := countLeading_head _ _ (hr ▸ hr16.1)
      have h0 : (cs.drop p).get? 0 = some c := by rw [hct]; rfl
      rw [List.get?_drop, Nat.add_zero] at h0
      rw [h0, of_decide_eq_true hc]
    have hrle : r ≤ cs.length - p := by
      have h2 := countLeading_le_length (fun c => decide (c = '#')) (cs.drop p)
      rw [List.length_drop, ← hr] at h2
      exact h2
    have hwle : w ≤ cs.length - (p + r) := by
      have h2 := countLeading_le_length pyWs (cs.drop (p + r))
      rw [List.length_drop, ← hw] at h2
      exact h2
    split at h
    · rename_i hw1
      split at h
      · rename_i hm
        split at h
        · rename_i hvis
          split at h
          · rename_i k hk
            simp only [Option.some.injEq, Prod.mk.injEq] at h
            obtain ⟨he1, he2, he3⟩ := h
            subst he3
            obtain ⟨hk1, hk2⟩ := lastNlIdx_spec _ k hk
            rw [List.length_take, List.length_drop] at hk1
            have hkw2 : k < w2 := lt_of_lt_of_le hk1 (Nat.min_le_left _ _)
            have hklen : k < cs.length - (p + r + w + tg.length) :=
              lt_of_lt_of_le hk1 (Nat.min_le_right _ _)
            have hnl : cs.get? (p + r + w + tg.length + k) = some '\n' := by
              rw [List.get?_take hkw2, List.get?_drop] at hk2
              exact hk2
            refine ⟨hhash, by omega, by omega, Or.inr ?_⟩
            simpa using hnl
          · exact Option.noConfusion h
        · rename_i hvis
          simp only [Option.some.injEq, Prod.mk.injEq] at h
          obtain ⟨he1, he2, he3⟩ := h
          subst he3
          exact ⟨hhash, by omega, Nat.le_refl _, Or.inl rfl⟩
      · rename_i hm
        split at h
        · rename_i k hk
          simp only [Option.some.injEq, Prod.mk.injEq] at h
          obtain ⟨he1, he2, he3⟩ := h
          subst he3
          exact ⟨hhash, by omega, Nat.le_refl _, Or.inl rfl⟩
        · exact Option.noConfusion h
    · exact Option.noConfusion h
  · exact Option.noConfusion h

theorem findHeadAux_sound (cs : List Char) (suf : List Char) :
    ∀ (p st lvl stop : Nat) (ttl : List Char),
    findHeadAux cs suf p = some (st, lvl, ttl, stop) →
    p ≤ st ∧ matchAt cs st = some (lvl, ttl, stop) := by
  induction suf with
  | nil => intro p st lvl stop ttl h; exact Option.noConfusion h
  | cons c suf2 ih =>
    intro p st lvl stop ttl h
    rw [findHeadAux] at h
    by_cases ha : anchoredAt cs p = true
    · rw [if_pos ha] at h
      rcases hm : matchAt cs p with _ | ⟨lvl2, ttl2, stop2⟩
      · rw [hm] at h
        obtain ⟨h1, h2⟩ := ih (p + 1) st lvl stop ttl h
        exact ⟨by omega, h2⟩
      · rw [hm] at h
        simp only [Option.some.injEq, Prod.mk.injEq] at h
        obtain ⟨he1, he2, he3, he4⟩ := h
        subst he1 he2 he3 he4
        exact ⟨Nat.le_refl _, hm⟩
    · rw [if_neg ha] at h
      obtain ⟨h1, h2⟩ := ih (p + 1) st lvl stop ttl h
      exact ⟨by omega, h2⟩

theorem findHead_sound (cs : List Char) (p st lvl stop : Nat) (ttl : List Char)
    (h : findHead cs p = some (st, lvl, ttl, stop)) :
    p ≤ st ∧ matchAt cs st = some (lvl, ttl, stop) :=
  findHeadAux_sound cs (cs.drop p) p st lvl stop ttl h

theorem parseLoop_sound (cs : List Char) (fuel : Nat) : ∀ (p : Nat) (h : Heading),
    h ∈ parseLoop cs fuel p →
    p ≤ h.start ∧ ∃ ttl, matchAt cs h.start = some (h.level, ttl, h.stop) ∧
      h.title = stripPy ttl ∧ h.normalized = normalize_heading_key (stripPy ttl) := by
  induction fuel with
  | zero => intro p h hmem; exact absurd hmem (List.not_mem_nil h)
  | succ fuel ih =>
    intro p h hmem
    rw [parseLoop] at hmem
    rcases hf : findHead cs p with _ | ⟨st, lvl, ttl, stop⟩
    · rw [hf] at hmem
      exact absurd hmem (List.not_mem_nil h)
    · rw [hf] at hmem
      rcases List.mem_cons.mp hmem with heq | htail
      · subst heq
        obtain ⟨h1, h2⟩ := findHead_sound cs p st lvl stop ttl hf
        exact ⟨h1, ttl, h2, rfl, rfl⟩
      · obtain ⟨h1, h2⟩ := ih stop h htail
        obtain ⟨hp, hmatch⟩ := findHead_sound cs p st lvl stop ttl hf
        obtain ⟨_, hb2, _, _⟩ := matchAt_sound cs st lvl stop ttl hmatch
        exact ⟨by omega, h2⟩

theorem parseLoop_pairwise (cs : List Char) (fuel : Nat) : ∀ p : Nat,
    (parseLoop cs fuel p).Pairwise (fun a b => a.stop ≤ b.start) := by
  induction fuel with
  | zero => intro p; exact List.Pairwise.nil
  | succ fuel ih =>
    intro p
    rw [parseLoop]
    rcases hf : findHead cs p with _ | ⟨st, lvl, ttl, stop⟩
    · exact List.Pairwise.nil
    · refine List.Pairwise.cons ?_ (ih stop)
      intro b hb
      exact (parseLoop_sound cs fuel stop b hb).1

theorem parse_headings_sound (text : List Char) (h : Heading)
    (hmem : h ∈ parse_headings text) :
    text.get? h.start = some '#' ∧ h.start + 2 ≤ h.stop ∧ h.stop ≤ text.length ∧
    (h.stop = text.length ∨ text.get? (h.stop - 1) = some '\n') := by
  obtain ⟨_, ttl, hmatch, _, _⟩ := parseLoop_sound text (text.length + 1) 0 h hmem
  exact matchAt_sound text h.start h.level h.stop ttl hmatch

theorem parse_headings_pairwise (text : List Char) :
    (parse_headings text).Pairwise (fun a b => a.stop ≤ b.start) :=
  parseLoop_pairwise text (text.length + 1) 0

theorem parse_headings_start_sorted (text : List Char) :
    (parse_headings text).Pairwise (fun a b => a.start < b.start) := by
  refine (parse_headings_pairwise text).imp_of_mem ?_
  intro a b ha hb hab
  have := (parse_headings_sound text a ha).2.1
  omega

theorem locateFrom_get (target : List Char) (l : List Heading) : ∀ (j i : Nat) (h : Heading),
    locateFrom target j l = some (h, i) → j ≤ i ∧ l.get? (i - j) = some h := by
  induction l with
  | nil => intro j i h hl; exact Option.noConfusion hl
  | cons x t ih =>
    intro j i h hl
    rw [locateFrom] at hl
    by_cases hx : x.normalized = target
    · rw [if_pos hx] at hl
      simp only [Option.some.injEq, Prod.mk.injEq] at hl
      obtain ⟨h1, h2⟩ := hl
      subst h1 h2
      exact ⟨Nat.le_refl _, by simp⟩
    · rw [if_neg hx] at hl
      obtain ⟨h1, h2⟩ := ih (j + 1) i h hl
      refine ⟨by omega, ?_⟩
      have hij : i - j = (i - (j + 1)) + 1 := by omega
      rw [hij]
      exact h2

theorem locate_heading_sound (text heading : List Char) (info : Heading) (i : Nat)
    (hs : List Heading) (h : locate_heading text heading = some (info, i, hs)) :
    hs = parse_headings text ∧ hs.get? i = some info := by
  simp only [locate_heading] at h
  rcases hl : locateFrom (normalize_heading_key heading) 0 (parse_headings text)
      with _ | ⟨h2, i2⟩
  · rw [hl] at h
    exact Option.noConfusion h
  · rw [hl] at h
    simp only [Option.some.injEq, Prod.mk.injEq] at h
    obtain ⟨e1, e2, e3⟩ := h
    subst e1 e2 e3
    have hg := locateFrom_get (normalize_heading_key heading) (parse_headings text) 0 i2 h2 hl
    refine ⟨rfl, ?_⟩
    simpa using hg.2

theorem sectionBoundsGo_eq_find (lvl s tl : Nat) (l : List Heading) :
    sectionBoundsGo lvl s tl l =
      (s, match l.find? (fun h2 => decide (h2.level ≤ lvl)) with
          | some nxt => nxt.start
          | none => tl) := by
  induction l with
  | nil => rfl
  | cons x t ih =>
    rw [sectionBoundsGo]
    by_cases hx : x.level ≤ lvl
    · rw [if_pos hx, List.find?_cons_of_pos _ (by simpa using hx)]
    · rw [if_neg hx, ih, List.find?_cons_of_neg _ (by simpa using hx)]

theorem section_bounds_eq (hs : List Heading) (i tl : Nat) (info : Heading)
    (hget : hs.get? i = some info) :
    section_bounds hs i tl =
      (info.stop, match (hs.drop (i + 1)).find? (fun h2 => decide (h2.level ≤ info.level)) with
        | some nxt => nxt.start
        | none => tl) := by
  unfold section_bounds
  rw [hget]
  exact sectionBoundsGo_eq_find info.level info.stop tl (hs.drop (i + 1))

theorem sectionBoundsGo_containment (lvl s tl : Nat) (l : List Heading)
    (hsorted : l.Pairwise (fun a b => a.start < b.start)) :
    ∀ h2 ∈ l, h2.start < (sectionBoundsGo lvl s tl l).2 → lvl < h2.level := by
  induction l with
  | nil => intro h2 hmem; exact absurd hmem (List.not_mem_nil h2)
  | cons x t ih =>
    intro h2 hmem hlt
    rw [sectionBoundsGo] at hlt
    by_cases hx : x.level ≤ lvl
    · rw [if_pos hx] at hlt
      rcases List.mem_cons.mp hmem with heq | htail
      · subst heq
        exact absurd hlt (lt_irrefl _)
      · have := (List.pairwise_cons.mp hsorted).1 h2 htail
        omega
    · rw [if_neg hx] at hlt
      rcases List.mem_cons.mp hmem with heq | htail
      · subst heq
        omega
      · exact ih (List.pairwise_cons.mp hsorted).2 h2 htail hlt

/-- C2 (amended): for every markdown text and index `i` into its parsed
heading list, `_section_bounds` returns `start` equal to heading `i`'s
`end` offset — the regex match end, which swallows the line terminator
and any immediately following blank lines, so it is not in general the
offset just past the heading's own line — and `end` equal to the start
offset of the first subsequent heading (in list order) whose level is
less than or equal to heading `i`'s level, or the text length when none
exists; every later heading that starts before that `end` has a strictly
deeper level, so deeper subsections lie inside the bounds. -/
theorem c2_section_bounds_characterization (text : List Char) (i : Nat) (info : Heading)
    (hget : (parse_headings text).get? i = some info) :
    (section_bounds (parse_headings text) i text.length).1 = info.stop ∧
    ((section_bounds (parse_headings text) i text.length).2 =
      match ((parse_headings text).drop (i + 1)).find?
          (fun h2 => decide (h2.level ≤ info.level)) with
      | some nxt => nxt.start
      | none => text.length) ∧
    (∀ h2 ∈ (parse_headings text).drop (i + 1),
      h2.start < (section_bounds (parse_headings text) i text.length).2 →
        info.level < h2.level) := by
  have he := section_bounds_eq (parse_headings text) i text.length info hget
  refine ⟨by rw [he], by rw [he], ?_⟩
  intro h2 hmem hlt
  have hb : section_bounds (parse_headings text) i text.length =
      sectionBoundsGo info.level info.stop text.length ((parse_headings text).drop (i + 1)) := by
    unfold section_bounds
    rw [hget]
  rw [hb] at hlt
  exact sectionBoundsGo_containment info.level info.stop text.length _
    (List.Pairwise.sublist (List.drop_sublist (i + 1) _) (parse_headings_start_sorted text))
    h2 hmem hlt

/-- Counterexample for C2 as stated: in `"# A\n\nx"` the heading's line
(with terminator) ends at offset 4, but the stored `end` offset — and
hence the `start` bound returned by `_section_bounds` — is 5, because
the `\s*$` tail of the heading pattern swallows the following blank
line. -/
theorem c2_counterexample :
    (parse_headings ("# A\n\nx".toList)).get? 0 =
      some { level := 1, title := ['A'], normalized := ['a'], start := 0, stop := 5 } ∧
    (section_bounds (parse_headings ("# A\n\nx".toList)) 0 ("# A\n\nx".toList).length).1 = 5 ∧
    line_end_with_terminator ("# A\n\nx".toList) 0 = 4 ∧
    (section_bounds (parse_headings ("# A\n\nx".toList)) 0 ("# A\n\nx".toList).length).1 ≠
      line_end_with_terminator ("# A\n\nx".toList) 0 := by
  exact ⟨rfl, rfl, rfl, by decide⟩

/-- Witness for C2 on a mixed-level fixture `# T / ## A / ### B / ## C /
# D`: the `## A` section runs from `A`'s stop offset 11 to `## C`'s
start offset 21, and the `### B` subsection starting inside is strictly
deeper (2 < 3). -/
theorem c2_witness :
    (section_bounds (parse_headings ("# T\nx\n## A\ny\n### B\nz\n## C\nw\n# D\nv\n".toList)) 1
        ("# T\nx\n## A\ny\n### B\nz\n## C\nw\n# D\nv\n".toList).length).1 = 11 ∧
    (section_bounds (parse_headings ("# T\nx\n## A\ny\n### B\nz\n## C\nw\n# D\nv\n".toList)) 1
        ("# T\nx\n## A\ny\n### B\nz\n## C\nw\n# D\nv\n".toList).length).2 = 21 ∧
    (2 : Nat) < 3 := by
  have h := c2_section_bounds_characterization
    ("# T\nx\n## A\ny\n### B\nz\n## C\nw\n# D\nv\n".toList) 1
    { level := 2, title := ['A'], normalized := ['a'], start := 6, stop := 11 } (by rfl)
  refine ⟨h.1, (h.2.1).trans (by decide), ?_⟩
  exact h.2.2 { level := 3, title := ['B'], normalized := ['b'], start := 13, stop := 19 }
    (by decide) (by decide)

theorem get?_some_lt_length (l : List Char) : ∀ (n : Nat) (c : Char),
    l.get? n = some c → n < l.length := by
  induction l with
  | nil => intro n c h; cases n <;> exact Option.noConfusion h
  | cons d t ih =>
    intro n c h
    cases n with
    | zero => exact Nat.succ_le_succ (Nat.zero_le _)
    | succ k => exact Nat.succ_lt_succ (ih k c h)

theorem drop_eq_cons_of_get? (cs : List Char) : ∀ (n : Nat) (c : Char),
    cs.get? n = some c → cs.drop n = c :: cs.drop (n + 1) := by
  induction cs with
  | nil => intro n c h; cases n <;> exact Option.noConfusion h
  | cons d t ih =>
    intro n c h
    cases n with
    | zero =>
      have hd : d = c := by injection h
      rw [hd]
      rfl
    | succ k => exact ih k c h

theorem getLast?_take_succ (cs : List Char) : ∀ (m : Nat) (c : Char),
    cs.get? m = some c → (cs.take (m + 1)).getLast? = some c := by
  induction cs with
  | nil => intro m c h; cases m <;> exact Option.noConfusion h
  | cons d t ih =>
    intro m c h
    cases m with
    | zero =>
      have hd : d = c := by injection h
      rw [hd]
      rfl
    | succ k =>
      have h3 := ih k c h
      have hk : k < t.length := get?_some_lt_length t k c h
      cases t with
      | nil => exact absurd hk (Nat.not_lt_zero k)
      | cons u t' =>
        rw [List.take_succ_cons, List.take_succ_cons, List.getLast?_cons_cons]
        rw [List.take_succ_cons] at h3
        exact h3

theorem dropWhile_imp_fix (p q : Char → Bool) (l : List Char)
    (himp : ∀ c, q c = true → p c = true) :
    (l.dropWhile p).dropWhile q = l.dropWhile p := by
  rcases hd : l.dropWhile p with _ | ⟨c, t⟩
  · rfl
  · have hpc : p c = false := by
      have := List.head?_dropWhile_not p l
      rw [hd] at this
      simp at this
      exact this
    have hqc : q c = false := by
      rcases hq : q c with _ | _
      · rfl
      · rw [himp c hq] at hpc
        exact Bool.noConfusion hpc
    rw [List.dropWhile_cons_of_neg (by rw [hqc]; exact Bool.false_ne_true)]

theorem rstripNl_rstripRN (l : List Char) : rstripNl (rstripRN l) = rstripRN l := by
  unfold rstripNl rstripRN
  rw [List.reverse_reverse]
  have himp : ∀ c : Char, decide (c = '\n') = true → decide (c = '\r' ∨ c = '\n') = true := by
    intro c hq
    simp at hq
    simp [hq]
  rw [dropWhile_imp_fix _ _ _ himp]

theorem lstripRN_hash_cons (l : List Char) : lstripRN ('#' :: l) = '#' :: l := by
  unfold lstripRN
  rw [List.dropWhile_cons_of_neg]
  decide

theorem pairwise_get?_drop {R : Heading → Heading → Prop} : ∀ (l : List Heading) (i : Nat)
    (a : Heading), l.Pairwise R → l.get? i = some a →
    ∀ b ∈ l.drop (i + 1), R a b := by
  intro l
  induction l with
  | nil => intro i a _ ha; exact Option.noConfusion ha
  | cons x t ih =>
    intro i a hp ha b hb
    cases i with
    | zero =>
      have hax : x = a := by injection ha
      rw [← hax]
      exact (List.pairwise_cons.mp hp).1 b hb
    | succ k =>
      exact ih k a (List.pairwise_cons.mp hp).2 ha b hb

/-- C3: whenever a heading of equal-or-higher level follows the target
section (the `find?` over the later headings succeeds) and the content is
non-empty after stripping trailing newlines, `replace_section` yields: the
text up to the target heading's stored end offset (which always ends in a
newline in this situation, so no extra leading newline is inserted), then
the stripped content, then exactly one blank line, then the text from the
next heading's start (whose leading character is `'#'`, so stripping
leading newlines from it changes nothing): exactly one blank line
separates the replaced section from the next heading, and every deeper
subsection between the two is removed. -/
theorem c3_replace_section_next_heading (text heading content : List Char)
    (info nxt : Heading) (i : Nat) (hs : List Heading)
    (hloc : locate_heading text heading = some (info, i, hs))
    (hfind : (hs.drop (i + 1)).find? (fun h2 => decide (h2.level ≤ info.level)) = some nxt)
    (hcontent : rstripRN content ≠ []) :
    replace_section text heading content =
      some { text := text.take info.stop ++ rstripRN content ++ '\n' :: '\n' :: text.drop nxt.start,
             wrote := true, status := "section_replaced", heading := info.title } := by
  obtain ⟨hhs, hget⟩ := locate_heading_sound text heading info i hs hloc
  subst hhs
  have hnxt_mem_drop : nxt ∈ (parse_headings text).drop (i + 1) :=
    List.mem_of_find?_eq_some hfind
  have hnxt_mem : nxt ∈ parse_headings text :=
    (List.drop_sublist (i + 1) _).subset hnxt_mem_drop
  have hinfo_mem : info ∈ parse_headings text := List.get?_mem hget
  obtain ⟨hn1, hn2, hn3, hn4⟩ := parse_headings_sound text nxt hnxt_mem
  obtain ⟨hi1, hi2, hi3, hi4⟩ := parse_headings_sound text info hinfo_mem
  have hstople : info.stop ≤ nxt.start :=
    pairwise_get?_drop (parse_headings text) i info (parse_headings_pairwise text) hget
      nxt hnxt_mem_drop
  have hnxtlt : nxt.start < text.length := get?_some_lt_length text nxt.start '#' hn1
  have hstopnl : text.get? (info.stop - 1) = some '\n' := by
    rcases hi4 with he | hnl
    · exact absurd he (by omega)
    · exact hnl
  have hlast : (text.take info.stop).getLast? = some '\n' := by
    have h5 := getLast?_take_succ text (info.stop - 1) '\n' hstopnl
    have h6 : info.stop - 1 + 1 = info.stop := by omega
    rw [h6] at h5
    exact h5
  have hdrop : text.drop nxt.start = '#' :: text.drop (nxt.start + 1) :=
    drop_eq_cons_of_get? text nxt.start '#' hn1
  have hbounds : section_bounds (parse_headings text) i text.length = (info.stop, nxt.start) := by
    rw [section_bounds_eq (parse_headings text) i text.length info hget, hfind]
  unfold replace_section
  rw [hloc]
  simp only [hbounds]
  have hcond : ¬(List.take info.stop text ≠ [] ∧ rstripRN content ≠ [] ∧
      (List.take info.stop text).getLast? ≠ some '\n' ∧
      (rstripRN content).head? ≠ some '\n') := fun hc => hc.2.2.1 hlast
  rw [if_neg hcond, hdrop, lstripRN_hash_cons,
    if_pos (show ('#' :: List.drop (nxt.start + 1) text) ≠ [] from List.cons_ne_nil _ _),
    rstripNl_rstripRN, if_pos hcontent]
  simp [List.append_assoc]

/-- Witness for C3: the claim's concrete example — replacing section
`Tasks` of `"# Tasks\n- buy milk\n\n## Sub\ntext\n\n# Done\n"` with
`"- new task"` yields `"# Tasks\n- new task\n\n# Done\n"`, removing the
nested `## Sub` subsection. -/
theorem c3_witness :
    replace_section ("# Tasks\n- buy milk\n\n## Sub\ntext\n\n# Done\n".toList)
        ("Tasks".toList) ("- new task".toList) =
      some { text := "# Tasks\n- new task\n\n# Done\n".toList, wrote := true,
             status := "section_replaced", heading := "Tasks".toList } := by
  have h := c3_replace_section_next_heading
    ("# Tasks\n- buy milk\n\n## Sub\ntext\n\n# Done\n".toList)
    ("Tasks".toList) ("- new task".toList)
    { level := 1, title := "Tasks".toList, normalized := "tasks".toList, start := 0, stop := 8 }
    { level := 1, title := "Done".toList, normalized := "done".toList, start := 33, stop := 40 }
    0
    [{ level := 1, title := "Tasks".toList, normalized := "tasks".toList, start := 0, stop := 8 },
     { level := 2, title := "Sub".toList, normalized := "sub".toList, start := 20, stop := 27 },
     { level := 1, title := "Done".toList, normalized := "done".toList, start := 33, stop := 40 }]
    (by rfl) (by rfl) (by decide)
  exact h
